import Mathlib

/-! # multiconfig: the flag loader

A shallow embedding of `flag.go` of the `multiconfig` package: the flag loader walks a
record through `fatih/structs`, derives one flag name per leaf field and registers it in
a `flag.FlagSet`.  The Go libraries the loader calls (`reflect`, `structs`, `strings`,
`camelcase`, `flag`) are modelled in namespaces of the same names; the functions of
`flag.go` live in the namespace `multiconfig` and keep their Go names.

Go strings are Lean strings.  Case mapping and character classes are the ASCII ones, so
the model agrees with Go on records whose field names, prefix and separator are ASCII.
-/

/-! ## Go runtime: results, panics, errors -/

/-- The result of running a Go function: it returns a value, or it panics with a message. -/
inductive Outcome (α : Type) where
  | ret (a : α)
  | panic (msg : String)
  deriving DecidableEq, Repr

namespace Outcome

/-- The value returned, if the call returned. -/
def returned? {α : Type} : Outcome α → Option α
  | ret a => some a
  | panic _ => none

/-- The message of the panic, if the call panicked. -/
def panicked? {α : Type} : Outcome α → Option String
  | ret _ => none
  | panic msg => some msg

/-- The result of a call, seen through `g`; a panic keeps its message. -/
def map {α β : Type} (g : α → β) : Outcome α → Outcome β
  | ret a => ret (g a)
  | panic msg => panic msg

end Outcome

/-- A Go `error` value: `none` is `nil`, `some msg` an error with that message. -/
abbrev error := Option String

/-! ## package strings -/

namespace strings

/-- Go `strings.ToLower` (ASCII letters). -/
def ToLower (s : String) : String := ⟨s.data.map Char.toLower⟩

/-- Go `strings.Join(elems, sep)`. -/
def Join (elems : List String) (sep : String) : String := sep.intercalate elems

/-- The list `p` is a prefix of the list `l`. -/
def hasPrefixChars : List Char → List Char → Bool
  | [], _ => true
  | _ :: _, [] => false
  | p :: ps, c :: cs => p == c && hasPrefixChars ps cs

/-- Go `strings.HasPrefix(s, prefix)`. -/
def HasPrefix (s p : String) : Bool := hasPrefixChars p.data s.data

/-- The list `sub` occurs in the list `l` as a contiguous block. -/
def containsChars (sub : List Char) : List Char → Bool
  | [] => sub.isEmpty
  | c :: cs => hasPrefixChars sub (c :: cs) || containsChars sub cs

/-- Go `strings.Contains(s, substr)`. -/
def Contains (s substr : String) : Bool := containsChars substr.data s.data

end strings

/-! ## package camelcase (github.com/fatih/camelcase) -/

namespace camelcase

/-- The character class `Split` assigns to a rune: 1 lower, 2 upper, 3 digit, 4 other. -/
def classOf (r : Char) : Nat :=
  if r.isLower then 1 else if r.isUpper then 2 else if r.isDigit then 3 else 4

/-- Appends `r` to the last run (`runes[len(runes)-1] = append(runes[len(runes)-1], r)`). -/
def appendToLast (r : Char) : List (List Char) → List (List Char)
  | [] => []
  | [run] => [run ++ [r]]
  | run :: rest => run :: appendToLast r rest

/-- One step of the first loop of `Split`: the rune joins the last run when it has the
class of the previous rune, and opens a new run otherwise. -/
def classStep (st : List (List Char) × Nat) (r : Char) : List (List Char) × Nat :=
  let cls := classOf r
  if cls = st.2 then (appendToLast r st.1, cls) else (st.1 ++ [[r]], cls)

/-- The first loop of `Split`: the runs of runes of one class. -/
def classRuns (src : List Char) : List (List Char) := (src.foldl classStep ([], 0)).1

/-- The second loop of `Split`, with `cur` standing for `runes[i]`: when `runes[i]` starts
with an upper-case rune and `runes[i+1]` with a lower-case one, the last rune of `runes[i]`
moves to the front of `runes[i+1]` ("PDFL", "oader" becomes "PDF", "Loader"). -/
def upperLower (cur : List Char) : List (List Char) → List (List Char)
  | [] => [cur]
  | next :: rest =>
    match cur.head?, next.head? with
    | some c, some n =>
      if c.isUpper && n.isLower then
        cur.dropLast :: upperLower (cur.getLast?.toList ++ next) rest
      else cur :: upperLower next rest
    | _, _ => cur :: upperLower next rest

/-- The second loop of `Split` over all runs. -/
def fixRuns : List (List Char) → List (List Char)
  | [] => []
  | run :: rest => upperLower run rest

/-- Go `camelcase.Split(src)`: the camel-case words of `src`; empty runs are dropped. -/
def Split (src : String) : List String :=
  ((fixRuns (classRuns src.data)).filter (fun s => 0 < s.length)).map String.mk

end camelcase

/-! ## package reflect -/

namespace reflect

/-- Go `reflect.Kind`. -/
inductive Kind where
  | Invalid | Bool | Int | Int8 | Int16 | Int32 | Int64
  | Uint | Uint8 | Uint16 | Uint32 | Uint64 | Uintptr
  | Float32 | Float64 | Complex64 | Complex128
  | Array | Chan | Func | Interface | Map | Ptr | Slice | String | Struct
  deriving DecidableEq, Repr

end reflect

/-! ## package structs (github.com/fatih/structs) -/

namespace structs

/-- A `*structs.Field`: one field of the record, as `structs` presents it.  `name` is the
declared field name, `exported` what `IsExported` reports, `kind` what `Kind` reports,
`tags` the struct tag as key/value pairs, `isFlagValue` whether the field's type has a
`Set(string) error` method (implements `flag.Value`), and `fields` what `Fields` returns
for a field of kind struct (the fields of the nested struct, in declaration order). -/
inductive Field where
  | mk (name : String) (exported : Bool) (kind : reflect.Kind)
      (tags : List (String × String)) (isFlagValue : Bool) (fields : List Field)
  deriving Repr

namespace Field

/-- Go `field.Name()`. -/
def Name : Field → String
  | mk name _ _ _ _ _ => name

/-- Go `field.IsExported()`. -/
def IsExported : Field → Bool
  | mk _ exported _ _ _ _ => exported

/-- Go `field.Kind()`. -/
def Kind : Field → reflect.Kind
  | mk _ _ kind _ _ _ => kind

/-- The key/value pairs of the field's struct tag. -/
def tags : Field → List (String × String)
  | mk _ _ _ tags _ _ => tags

/-- The field's type implements `flag.Value`. -/
def isFlagValue : Field → Bool
  | mk _ _ _ _ v _ => v

/-- Go `field.Fields()`. -/
def Fields : Field → List Field
  | mk _ _ _ _ _ fields => fields

/-- Go `field.Tag(key)`: the value of `key` in the struct tag, `""` when absent. -/
def Tag (field : Field) (key : String) : String :=
  match field.tags.find? (fun kv => kv.1 == key) with
  | some kv => kv.2
  | none => ""

end Field

/-- What `structs.New(s)` gives for a pointer `s` to a struct: the type name (`Name`) and
the fields (`Fields`), in declaration order. -/
structure Struct where
  Name : String
  Fields : List Field
  deriving Repr

end structs

/-! ## package flag -/

namespace flag

/-- Go `flag.ErrorHandling`. -/
inductive ErrorHandling where
  | ContinueOnError | ExitOnError | PanicOnError
  deriving DecidableEq, Repr

end flag

namespace multiconfig

/-- The `fieldValue` of `flag.go`: the `flag.Value` the loader registers for a field. -/
structure fieldValue where
  field : structs.Field
  deriving Repr

/-- Go `newFieldValue(f)`. -/
def newFieldValue (f : structs.Field) : fieldValue := ⟨f⟩

/-- Go `(*fieldValue).IsBoolFlag`. -/
def fieldValue.IsBoolFlag (f : fieldValue) : Bool := f.field.Kind = reflect.Kind.Bool

end multiconfig

namespace flag

/-- Go `flag.Flag`: the name, the usage text and the value of one registered flag. -/
structure Flag where
  Name : String
  Usage : String
  Value : multiconfig.fieldValue
  deriving Repr

/-- Go `flag.FlagSet`: the name and error handling given to `NewFlagSet`, and the flags
defined so far (`formal`), kept in the order of their definition. -/
structure FlagSet where
  name : String
  errorHandling : ErrorHandling
  formal : List Flag
  deriving Repr

/-- Go `flag.NewFlagSet(name, errorHandling)`. -/
def NewFlagSet (name : String) (errorHandling : ErrorHandling) : FlagSet :=
  ⟨name, errorHandling, []⟩

namespace FlagSet

/-- The names of the flags defined in the set, in the order of their definition. -/
def names (fs : FlagSet) : List String := fs.formal.map Flag.Name

/-- Go `f.Lookup(name)`. -/
def Lookup (fs : FlagSet) (name : String) : Option Flag :=
  fs.formal.find? (fun fl => fl.Name == name)

/-- The loop of `VisitAll`: calls `fn` on each flag until one call panics. -/
def visit (fn : Flag → Outcome Unit) : List Flag → Outcome Unit
  | [] => .ret ()
  | fl :: rest =>
    match fn fl with
    | .ret _ => visit fn rest
    | .panic msg => .panic msg

/-- Go `f.VisitAll(fn)`: calls `fn` for every flag of the set.  Go visits in the
lexicographical order of the names and the model in the order of definition; the names
of a set are distinct, so a callback that reacts to one name sees the same flags. -/
def VisitAll (fs : FlagSet) (fn : Flag → Outcome Unit) : Outcome Unit :=
  visit fn fs.formal

/-- The text of `fmt.Sprintf("%q", name)` for a name without characters to escape. -/
def quote (name : String) : String := "\"" ++ name ++ "\""

/-- Go `f.Var(value, name, usage)`: defines a flag.  It panics when the name begins with
`-` or contains `=`, and when a flag of that name is already defined. -/
def Var (fs : FlagSet) (value : multiconfig.fieldValue) (name usage : String) :
    Outcome FlagSet :=
  if strings.HasPrefix name "-" then
    .panic ("flag " ++ quote name ++ " begins with -")
  else if strings.Contains name "=" then
    .panic ("flag " ++ quote name ++ " contains =")
  else if fs.formal.any (fun fl => fl.Name == name) then
    if fs.name = "" then .panic ("flag redefined: " ++ name)
    else .panic (fs.name ++ " flag redefined: " ++ name)
  else
    .ret { fs with formal := fs.formal ++ [⟨name, usage, value⟩] }

/-- The state of `Parse`: the arguments left to parse (`f.args`) and the calls of
`Value.Set` made so far, each as the name of the flag and the text handed to `Set`. -/
structure Parsing where
  args : List String
  calls : List (String × String)
  deriving DecidableEq, Repr

/-- The result of `parseOne`: `(true, nil)`, `(false, nil)` or `(false, err)`. -/
inductive Seen where
  | seen
  | done
  | failed (err : String)
  deriving DecidableEq, Repr

/-- The loop `for i := 1; i < len(name); i++` of `parseOne`, run on `name[1:]`: the text
before and the text after the first "=", when there is one. -/
def splitEquals : List Char → Option (List Char × List Char)
  | [] => none
  | c :: cs =>
    if c = '=' then some ([], cs)
    else
      match splitEquals cs with
      | some (before, value) => some (c :: before, value)
      | none => none

/-- The text of Go `flag.ErrHelp`. -/
def ErrHelp : String := "flag: help requested"

/-- The part of `parseOne` after the flag was looked up: a flag whose value reports
`IsBoolFlag` is set to the value after "=" or to "true"; any other flag takes the value
after "=" or the next argument, and fails without one.  `set` is `Value.Set`. -/
def setFlag (set : multiconfig.fieldValue → String → error) (fl : Flag) (name : String)
    (hasValue : Bool) (value : String) (p : Parsing) : Seen × Parsing :=
  if fl.Value.IsBoolFlag then
    if hasValue then
      match set fl.Value value with
      | some err =>
        (.failed ("invalid boolean value " ++ quote value ++ " for -" ++ name ++ ": " ++ err),
          { p with calls := p.calls ++ [(name, value)] })
      | none => (.seen, { p with calls := p.calls ++ [(name, value)] })
    else
      match set fl.Value "true" with
      | some err =>
        (.failed ("invalid boolean flag " ++ name ++ ": " ++ err),
          { p with calls := p.calls ++ [(name, "true")] })
      | none => (.seen, { p with calls := p.calls ++ [(name, "true")] })
  else
    let next : Option (String × List String) :=
      if hasValue then some (value, p.args)
      else
        match p.args with
        | v :: rest => some (v, rest)
        | [] => none
    match next with
    | none => (.failed ("flag needs an argument: -" ++ name), p)
    | some (value, args) =>
      match set fl.Value value with
      | some err =>
        (.failed ("invalid value " ++ quote value ++ " for flag -" ++ name ++ ": " ++ err),
          { args := args, calls := p.calls ++ [(name, value)] })
      | none => (.seen, { args := args, calls := p.calls ++ [(name, value)] })

/-- Go `f.parseOne()`: parses one flag off the front of the arguments.  An argument that
is shorter than two bytes or does not begin with "-" ends the flags, and so does "--". -/
def parseOne (set : multiconfig.fieldValue → String → error) (fs : FlagSet) (p : Parsing) :
    Seen × Parsing :=
  match p.args with
  | [] => (.done, p)
  | s :: rest =>
    match s.data with
    | c0 :: c1 :: tl =>
      if c0 ≠ '-' then (.done, p)
      else if c1 = '-' ∧ tl = [] then (.done, { p with args := rest })
      else
        let name := if c1 = '-' then tl else c1 :: tl
        match name with
        | [] => (.failed ("bad flag syntax: " ++ s), p)
        | n0 :: ntl =>
          if n0 = '-' ∨ n0 = '=' then (.failed ("bad flag syntax: " ++ s), p)
          else
            let p := { p with args := rest }
            match splitEquals ntl with
            | some (before, value) =>
              let name := String.mk (n0 :: before)
              match fs.Lookup name with
              | none =>
                if name = "help" ∨ name = "h" then (.failed ErrHelp, p)
                else (.failed ("flag provided but not defined: -" ++ name), p)
              | some fl => setFlag set fl name true (String.mk value) p
            | none =>
              let name := String.mk (n0 :: ntl)
              match fs.Lookup name with
              | none =>
                if name = "help" ∨ name = "h" then (.failed ErrHelp, p)
                else (.failed ("flag provided but not defined: -" ++ name), p)
              | some fl => setFlag set fl name false "" p
    | _ => (.done, p)

/-- The loop of `Parse`: `parseOne` is repeated while it sees a flag; on an error the
error handling decides.  The exit of the process under `ExitOnError` is rendered as a
panic with the exit status as message. -/
def parseLoop (set : multiconfig.fieldValue → String → error) (fs : FlagSet) :
    Nat → Parsing → Outcome error × Parsing
  | 0, p => (.ret none, p)
  | fuel + 1, p =>
    match parseOne set fs p with
    | (.seen, p1) => parseLoop set fs fuel p1
    | (.done, p1) => (.ret none, p1)
    | (.failed err, p1) =>
      match fs.errorHandling with
      | .ContinueOnError => (.ret (some err), p1)
      | .ExitOnError =>
        if err = ErrHelp then (.panic "exit status 0", p1) else (.panic "exit status 2", p1)
      | .PanicOnError => (.panic err, p1)

/-- Go `f.Parse(arguments)`, with the state it ends in.  Every flag seen takes at least
one argument, so `len(arguments) + 1` iterations end the loop. -/
def Parse (fs : FlagSet) (set : multiconfig.fieldValue → String → error)
    (arguments : List String) : Outcome error × Parsing :=
  parseLoop set fs (arguments.length + 1) ⟨arguments, []⟩

end FlagSet

end flag

/-! ## flag.go -/

namespace multiconfig

open structs (Field Struct)
open flag (FlagSet)

/-- The `FlagLoader` of `flag.go`.  `Args` and `FlagUsageFunc` are `none` when nil, and
`flagSet` is `none` until `Load` creates the flag set. -/
structure FlagLoader where
  Prefix : String
  Flatten : Bool
  CamelCase : Bool
  StructSeparator : String
  EnvPrefix : String
  ErrorHandling : flag.ErrorHandling
  Args : Option (List String)
  FlagUsageFunc : Option (String → String)
  flagSet : Option FlagSet

/-- Go `flagName(name)`. -/
def flagName (name : String) : String := strings.ToLower name

/-- Go `(*FlagLoader).flagUsage(fieldName, field)`. -/
def FlagLoader.flagUsage (f : FlagLoader) (fieldName : String) (field : Field) : String :=
  match f.FlagUsageFunc with
  | some usageFunc => usageFunc fieldName
  | none =>
    let usage := field.Tag "flagUsage"
    if usage ≠ "" then usage
    else "Change value of " ++ fieldName ++ "."

/-- The callback `processField` hands to `VisitAll` when `Flatten` is set: it panics on
the flag whose name is `fName`. -/
def duplicateCheck (fName : String) (fl : flag.Flag) : Outcome Unit :=
  if fName = fl.Name then
    .panic ("flag '" ++ fl.Name ++ "' is already defined in an outer struct")
  else .ret ()

/-- The `default` case of the switch of `processField`, for a field that is not of kind
struct; `pfx` is the prefix after the separator was appended. -/
def processLeaf (f : FlagLoader) (pfx : String) (field : Field) (fs : FlagSet) :
    Outcome (error × FlagSet) :=
  let fieldName := field.Name
  let fieldName := if f.CamelCase then strings.Join (camelcase.Split fieldName) "-" else fieldName
  let fName := flagName (pfx ++ fieldName)
  match (if f.Flatten then fs.VisitAll (duplicateCheck fName) else .ret ()) with
  | .panic msg => .panic msg
  | .ret _ =>
    match fs.Var (newFieldValue field) fName (f.flagUsage fieldName field) with
    | .panic msg => .panic msg
    | .ret fs1 => .ret (none, fs1)

mutual

/-- Go `(*FlagLoader).processField(prefix, field)`.  The flag set `f.flagSet` points to is
passed as `fs` and returned with the flags the call defined; the first component of the
result is the `error` the Go function returns. -/
def processField (f : FlagLoader) (pfx : String) (field : Field) (fs : FlagSet) :
    Outcome (error × FlagSet) :=
  match field with
  | .mk name exported kind tags isFlagValue fields =>
    if !exported then .ret (none, fs)
    else
      let pfx := if pfx ≠ "" then pfx ++ f.StructSeparator else pfx
      match kind with
      | .Struct => processStruct f pfx name fields fs
      | _ => processLeaf f pfx (.mk name exported kind tags isFlagValue fields) fs

/-- The loop `for _, ff := range field.Fields()` of the struct case of `processField`;
`name` is `field.Name()` of the struct field whose fields are walked. -/
def processStruct (f : FlagLoader) (pfx : String) (name : String) (fields : List Field)
    (fs : FlagSet) : Outcome (error × FlagSet) :=
  match fields with
  | [] => .ret (none, fs)
  | ff :: rest =>
    if f.Flatten then
      match processField f pfx ff fs with
      | .panic msg => .panic msg
      | .ret (some err, fs1) => .ret (some err, fs1)
      | .ret (none, fs1) => processStruct f pfx name rest fs1
    else
      let fieldName := name
      let fieldName :=
        if f.CamelCase then strings.Join (camelcase.Split fieldName) "-" else fieldName
      match processField f (pfx ++ fieldName) ff fs with
      | .panic msg => .panic msg
      | .ret (some err, fs1) => .ret (some err, fs1)
      | .ret (none, fs1) => processStruct f pfx name rest fs1

end

/-- The loop `for _, field := range strct.Fields()` of `Load`. -/
def processFields (f : FlagLoader) (fields : List Field) (fs : FlagSet) :
    Outcome (error × FlagSet) :=
  match fields with
  | [] => .ret (none, fs)
  | field :: rest =>
    match processField f f.Prefix field fs with
    | .panic msg => .panic msg
    | .ret (some err, fs1) => .ret (some err, fs1)
    | .ret (none, fs1) => processFields f rest fs1

/-- The loop of `filterArgs`, with `i` the loop index, `r` the result so far and `fuel`
a bound on the number of iterations left. -/
def filterArgsLoop (args : List String) : Nat → Nat → List String → List String
  | 0, _, r => r
  | fuel + 1, i, r =>
    match args[i]? with
    | none => r
    | some a =>
      if strings.Contains a "test." then
        let i1 :=
          match args[i + 1]? with
          | some b => if !strings.Contains b "-" then i + 1 else i
          | none => i
        filterArgsLoop args fuel (i1 + 1 + 1) r
      else filterArgsLoop args fuel (i + 1) (r ++ [a])

/-- Go `filterArgs(args)`.  Every iteration advances the index, so `len(args)`
iterations reach the end of the list. -/
def filterArgs (args : List String) : List String :=
  filterArgsLoop args args.length 0 []

/-- What `Load` takes from outside `flag.go`: `osArgs` is `os.Args[1:]`, and `Parse` is
`flagSet.Parse(args)` of package flag, which sets the fields of the record through the
registered values and returns an error or panics, following the error handling. -/
structure Env where
  osArgs : List String
  Parse : FlagSet → List String → Outcome error

/-- The part of `Load` up to and including the loop over the fields: the separator
defaults to "-", a fresh flag set named after the struct is created, and every field is
processed.  It gives the loader as `Load` leaves it, the `error` of the loop and the flag
set. -/
def register (f : FlagLoader) (s : Struct) : Outcome (FlagLoader × error × FlagSet) :=
  let f := if f.StructSeparator = "" then { f with StructSeparator := "-" } else f
  let structName := s.Name
  let flagSet := flag.NewFlagSet structName f.ErrorHandling
  match processFields f s.Fields flagSet with
  | .panic msg => .panic msg
  | .ret (err, fs) => .ret ({ f with flagSet := some fs }, err, fs)

/-- Go `(*FlagLoader).Load(s)`.  The result holds the loader after the call (`Load` has a
pointer receiver and assigns `StructSeparator` and `flagSet`) and the returned `error`.
The assignment of `flagSet.Usage`, a closure that only prints, is left out. -/
def Load (env : Env) (f : FlagLoader) (s : Struct) : Outcome (FlagLoader × error) :=
  match register f s with
  | .panic msg => .panic msg
  | .ret (f1, some err, _) => .ret (f1, some err)
  | .ret (f1, none, flagSet) =>
    let args := filterArgs env.osArgs
    let args := match f1.Args with
      | some a => a
      | none => args
    match env.Parse flagSet args with
    | .panic msg => .panic msg
    | .ret err => .ret (f1, err)

/-! ## The walk of `processField`, without the flag set -/

/-- The segment a field name contributes to a flag name: the assignments to `fieldName`
in `processField`. -/
def FlagLoader.segment (f : FlagLoader) (name : String) : String :=
  if f.CamelCase then strings.Join (camelcase.Split name) "-" else name

/-- The prefix after `if prefix != "" { prefix = prefix + f.StructSeparator }`. -/
def FlagLoader.extend (f : FlagLoader) (pfx : String) : String :=
  if pfx ≠ "" then pfx ++ f.StructSeparator else pfx

/-- The prefix the struct case of `processField` passes down to the fields of the struct
field `name`: the prefix itself with `Flatten`, the prefix and the segment without. -/
def FlagLoader.childPrefix (f : FlagLoader) (pfx name : String) : String :=
  if f.Flatten then pfx else pfx ++ f.segment name

/-- The flag the `default` case of `processField` defines for `field` under the prefix
`pfx` (the separator already appended). -/
def leafFlag (f : FlagLoader) (pfx : String) (field : Field) : flag.Flag :=
  ⟨flagName (pfx ++ f.segment field.Name), f.flagUsage (f.segment field.Name) field,
    newFieldValue field⟩

mutual

/-- The flags `processField f pfx field` sets out to define, in order: the recursion of
`processField` with the flag set left out. -/
def flagsOf (f : FlagLoader) (pfx : String) : Field → List flag.Flag
  | .mk name exported kind tags isFlagValue fields =>
    if !exported then []
    else
      match kind with
      | .Struct => flagsOfList f (f.childPrefix (f.extend pfx) name) fields
      | _ => [leafFlag f (f.extend pfx) (.mk name exported kind tags isFlagValue fields)]

/-- The flags a loop over `fields` sets out to define, every field under the prefix `pfx`. -/
def flagsOfList (f : FlagLoader) (pfx : String) : List Field → List flag.Flag
  | [] => []
  | ff :: rest => flagsOf f pfx ff ++ flagsOfList f pfx rest

end

/-- Defines one flag the way the `default` case of `processField` does: with `Flatten`
the flag set is searched for the name first, then the flag goes to `Var`. -/
def defineFlag (f : FlagLoader) (fl : flag.Flag) (fs : FlagSet) : Outcome FlagSet :=
  match (if f.Flatten then fs.VisitAll (duplicateCheck fl.Name) else .ret ()) with
  | .panic msg => .panic msg
  | .ret _ => fs.Var fl.Value fl.Name fl.Usage

/-- Defines the flags of a list one after the other; the first panic ends the run. -/
def defineFlags (f : FlagLoader) : List flag.Flag → FlagSet → Outcome FlagSet
  | [], fs => .ret fs
  | fl :: rest, fs =>
    match defineFlag f fl fs with
    | .panic msg => .panic msg
    | .ret fs1 => defineFlags f rest fs1

/-- A flag set handed back together with a nil `error`. -/
def noError : Outcome FlagSet → Outcome (error × FlagSet)
  | .panic msg => .panic msg
  | .ret fs => .ret (none, fs)

/-- The loader as `Load` leaves it after its first statement: an empty `StructSeparator`
has become "-". -/
def FlagLoader.defaulted (f : FlagLoader) : FlagLoader :=
  if f.StructSeparator = "" then { f with StructSeparator := "-" } else f

/-- The result of the registration phase of `Load` when the flags `flags` are defined in
a fresh flag set: the loader keeps the flag set, and the `error` is nil. -/
def registered (f : FlagLoader) (s : Struct) (flags : List flag.Flag) :
    Outcome (FlagLoader × error × FlagSet) :=
  match defineFlags f flags (flag.NewFlagSet s.Name f.ErrorHandling) with
  | .panic msg => .panic msg
  | .ret fs => .ret ({ f.defaulted with flagSet := some fs }, none, fs)

/-! ## The record walker and the name resolver, as the specification words them -/

/-- A leaf of a record: the names of the struct fields it lies in, outermost first, and
the field itself. -/
structure Leaf where
  ancestors : List String
  field : Field
  deriving Repr

/-- The leaf `l`, one struct field named `name` further in. -/
def Leaf.under (name : String) (l : Leaf) : Leaf := ⟨name :: l.ancestors, l.field⟩

mutual

/-- The exported leaf fields reached from `field` through exported struct fields, in
declaration order, depth first: an unexported field gives none, a field of kind struct
gives the leaves of its fields, any other field is a leaf. -/
def leavesOf : Field → List Leaf
  | .mk name exported kind tags isFlagValue fields =>
    if !exported then []
    else
      match kind with
      | .Struct => (leavesOfList fields).map (Leaf.under name)
      | _ => [⟨[], .mk name exported kind tags isFlagValue fields⟩]

/-- The leaves of a list of fields. -/
def leavesOfList : List Field → List Leaf
  | [] => []
  | ff :: rest => leavesOf ff ++ leavesOfList rest

end

/-- The exported leaf fields of a record. -/
def leaves (s : Struct) : List Leaf := leavesOfList s.Fields

/-- The segments the prefix contributes: `[Prefix]` when it is non-empty, none otherwise. -/
def prefixSegments (f : FlagLoader) : List String :=
  if f.Prefix ≠ "" then [f.Prefix] else []

/-- The separator of flag names: `StructSeparator`, or "-" when that is empty. -/
def separator (f : FlagLoader) : String :=
  if f.StructSeparator = "" then "-" else f.StructSeparator

/-- The path of a leaf: the ancestor names and the leaf's own name. -/
def Leaf.path (l : Leaf) : List String := l.ancestors ++ [l.field.Name]

/-- The flag name of a leaf without `Flatten` and `CamelCase`: the prefix, the ancestor
names and the leaf name, joined with the separator and lower-cased. -/
def joinedName (f : FlagLoader) (l : Leaf) : String :=
  strings.ToLower (strings.Join (prefixSegments f ++ l.path) (separator f))

/-- The flag of a leaf named by `name`: the usage the loader computes from the leaf's
segment, and the leaf field as value. -/
def flagNamed (f : FlagLoader) (name : Leaf → String) (l : Leaf) : flag.Flag :=
  ⟨name l, f.flagUsage (f.segment l.field.Name) l.field, newFieldValue l.field⟩

/-- The name the loader gives a leaf without `Flatten`, the segments `Q` being those of
the prefix the walk started from. -/
def nameFrom (f : FlagLoader) (Q : List String) (l : Leaf) : String :=
  strings.ToLower (strings.Join (Q ++ l.path.map f.segment) f.StructSeparator)

/-- The flag name of a leaf without `Flatten`, for a loader with any `CamelCase`: as
`joinedName`, with every segment of the path replaced by the loader's segment for it. -/
def segmentName (f : FlagLoader) (l : Leaf) : String :=
  strings.ToLower (strings.Join (prefixSegments f ++ l.path.map f.segment) (separator f))

/-- The flag name of a leaf with `Flatten` and an empty prefix: the lower-cased segment
of the leaf's own name. -/
def flattenName (f : FlagLoader) (l : Leaf) : String :=
  strings.ToLower (f.segment l.field.Name)

/-- The flag name of a top-level leaf field under a non-empty prefix: the prefix, the
separator and the segment of the field name, lower-cased. -/
def topLevelName (f : FlagLoader) (field : Field) : String :=
  strings.ToLower (f.Prefix ++ separator f ++ f.segment field.Name)

/-- The flag of a top-level leaf field under a non-empty prefix. -/
def topLevelFlag (f : FlagLoader) (field : Field) : flag.Flag :=
  ⟨topLevelName f field, f.flagUsage (f.segment field.Name) field, newFieldValue field⟩

mutual

/-- The field with the name of every field of kind struct, at every level, replaced by
`g` of the name; fields of other kinds are left as they are. -/
def renameStructField (g : String → String) : Field → Field
  | .mk name exported kind tags isFlagValue fields =>
    match kind with
    | .Struct => .mk (g name) exported kind tags isFlagValue (renameStructFields g fields)
    | _ => .mk name exported kind tags isFlagValue fields

/-- The fields of a list, renamed by `renameStructField`. -/
def renameStructFields (g : String → String) : List Field → List Field
  | [] => []
  | ff :: rest => renameStructField g ff :: renameStructFields g rest

end

/-- The record with every struct field renamed by `g`: the ancestors of the leaves get
other names, the leaves stay. -/
def renameStructs (g : String → String) (s : Struct) : Struct :=
  ⟨s.Name, renameStructFields g s.Fields⟩

/-- The flag name with `Flatten` as a claim words it: `lower(f)` for an empty prefix and
`lower(Prefix + sep + f)` otherwise, `f` being the leaf's declared name. -/
def statedFlattenName (f : FlagLoader) (l : Leaf) : String :=
  if f.Prefix = "" then strings.ToLower l.field.Name
  else strings.ToLower (f.Prefix ++ separator f ++ l.field.Name)

/-- Flatten naming as a claim words it, for one loader and record: the flags the
registration phase leaves in the flag set carry the names `statedFlattenName` gives the
leaves. -/
def FlattenNamingStated (f : FlagLoader) (s : Struct) : Prop :=
  f.Flatten = true → ∀ f1 err fs, register f s = .ret (f1, err, fs) →
    fs.names = (leaves s).map (statedFlattenName f)

/-- The camel-case words of a name, joined with "-". -/
def camelWords (name : String) : String := strings.Join (camelcase.Split name) "-"

/-- The flag name of a leaf with `CamelCase` and without `Flatten`: as `joinedName`, with
every segment of the path replaced by its camel-case words joined with "-". -/
def camelName (f : FlagLoader) (l : Leaf) : String :=
  strings.ToLower (strings.Join (prefixSegments f ++ l.path.map camelWords) (separator f))

mutual

/-- The field with its name, and the names of all fields below it, replaced by their
camel-case words joined with "-". -/
def camelField : Field → Field
  | .mk name exported kind tags isFlagValue fields =>
    .mk (camelWords name) exported kind tags isFlagValue (camelFields fields)

/-- The fields of a list, renamed by `camelField`. -/
def camelFields : List Field → List Field
  | [] => []
  | ff :: rest => camelField ff :: camelFields rest

end

/-- The record with every field name replaced by its camel-case words joined with "-". -/
def camelRecord (s : Struct) : Struct := ⟨s.Name, camelFields s.Fields⟩

/-- The name and the usage of a flag. -/
def flagView (fl : flag.Flag) : String × String := (fl.Name, fl.Usage)

/-- The name of a flag set and the names and usages of its flags, in order. -/
def setView (fs : FlagSet) : String × List (String × String) :=
  (fs.name, fs.formal.map flagView)

/-- The loader with `CamelCase` unset. -/
def FlagLoader.withoutCamelCase (f : FlagLoader) : FlagLoader := { f with CamelCase := false }

/-- What the registration phase shows of its result: the returned `error` and the names
and usages of the flags of the flag set, in order, or the message of the panic. -/
def registeredView (o : Outcome (FlagLoader × error × FlagSet)) :
    Outcome (error × List (String × String)) :=
  o.map (fun r => (r.2.1, r.2.2.formal.map flagView))

/-- The message of the panic of `processField` for a flag name that is already defined. -/
def duplicateMessage (name : String) : String :=
  "flag '" ++ name ++ "' is already defined in an outer struct"

/-- The message of the panic of `Var` for a flag name that is already defined. -/
def redefinedMessage (fs : FlagSet) (name : String) : String :=
  if fs.name = "" then "flag redefined: " ++ name else fs.name ++ " flag redefined: " ++ name

/-- The flags `Load` sets out to define for a record, in declaration order, depth first,
each with the name the loader resolves for it. -/
def resolved (f : FlagLoader) (s : Struct) : List flag.Flag :=
  flagsOfList f.defaulted f.Prefix s.Fields

/-- The flag names the loader resolves for the leaves of a record, in order. -/
def resolvedNames (f : FlagLoader) (s : Struct) : List String :=
  (resolved f s).map flag.Flag.Name

/-- The report of a duplicate flag name as a claim words it, for one call: when two
leaves resolve to the same flag name, `Load` returns, and returns a non-nil error. -/
def DuplicateReturnedStated (env : Env) (f : FlagLoader) (s : Struct) : Prop :=
  ¬ (resolvedNames f s).Nodup → ∃ f1 msg, Load env f s = .ret (f1, some msg)

/-- The generated default usage as a claim words it, for one loader and record: every
flag registered for a field without `flagUsage` tag, by a loader without `FlagUsageFunc`,
has the usage "Change value of F." for the declared name `F` of the field. -/
def DefaultUsageStated (f : FlagLoader) (s : Struct) : Prop :=
  ∀ f1 err fs, register f s = .ret (f1, err, fs) → ∀ fl ∈ fs.formal,
    f.FlagUsageFunc = none → fl.Value.field.Tag "flagUsage" = "" →
    fl.Usage = "Change value of " ++ fl.Value.field.Name ++ "."

mutual

/-- The field with the unexported fields removed at every level of nested structs. -/
def exportedField : Field → Field
  | .mk name exported kind tags isFlagValue fields =>
    match kind with
    | .Struct => .mk name exported kind tags isFlagValue (exportedFields fields)
    | _ => .mk name exported kind tags isFlagValue fields

/-- The exported fields of a list, each with the unexported fields below it removed. -/
def exportedFields : List Field → List Field
  | [] => []
  | ff :: rest =>
    if ff.IsExported then exportedField ff :: exportedFields rest else exportedFields rest

end

/-- The record with its unexported fields, and all that lies beneath them, removed. -/
def exportedOnly (s : Struct) : Struct := ⟨s.Name, exportedFields s.Fields⟩

/-- The treatment of a field with a `Set` method as a claim words it, for one call of
`processField`: an exported field whose type implements `flag.Value` gets exactly one
flag, named after the field, and is not recursed into. -/
def SettableLeafStated (f : FlagLoader) (pfx : String) (field : Field) (fs : FlagSet) : Prop :=
  field.IsExported = true → field.isFlagValue = true →
    processField f pfx field fs = noError (defineFlag f (leafFlag f (f.extend pfx) field) fs)

/-- A fresh loader with the configuration of `f`: `flagSet` is nil, as before any `Load`. -/
def FlagLoader.fresh (f : FlagLoader) : FlagLoader := { f with flagSet := none }

/-- The end of `Load` once the flags are registered: `Parse` runs on `args`, and its
error is returned with the loader. -/
def parsed (env : Env) (f1 : FlagLoader) (fs : FlagSet) (args : List String) :
    Outcome (FlagLoader × error) :=
  match env.Parse fs args with
  | .panic msg => .panic msg
  | .ret err => .ret (f1, err)

/-- The environment of a Go process: `osArgs` is `os.Args[1:]`, `Parse` is the `Parse` of
package flag, and `set` is what `Value.Set` returns for a registered value and a text. -/
def goEnv (osArgs : List String) (set : fieldValue → String → error) : Env :=
  ⟨osArgs, fun fs args => (fs.Parse set args).1⟩

/-- The selection of the argument list as a claim words it, for one call: once the flags
are registered, `Load` parses `Args` when it is non-nil and `os.Args[1:]` when it is nil. -/
def ArgsSelectionStated (env : Env) (f : FlagLoader) (s : Struct) : Prop :=
  ∀ f1 fs, register f s = .ret (f1, none, fs) →
    Load env f s = parsed env f1 fs
      (match f.Args with
        | some a => a
        | none => env.osArgs)

/-- The arguments kept from a list, `prevTest` telling whether the argument before the
list contains "test.": an argument is removed when it contains "test.", and when it
follows such an argument and contains no "-". -/
def keptAfter (prevTest : Bool) : List String → List String
  | [] => []
  | a :: rest =>
    let removed := strings.Contains a "test." || (prevTest && !strings.Contains a "-")
    (if removed then [] else [a]) ++ keptAfter (strings.Contains a "test.") rest

/-- The arguments `filterArgs` keeps, as a claim words it: the arguments that contain
"test." are removed, each together with the argument right after it when that one
contains no "-"; every other argument is kept, in order. -/
def keptArgs (args : List String) : List String := keptAfter false args

/-! ## Records of the tests -/

/-- A loader with every option unset. -/
def plainLoader : FlagLoader := ⟨"", false, false, "", "", .ContinueOnError, none, none, none⟩

/-- An exported field named `name` of kind `kind`, without tags. -/
def leafField (name : String) (kind : reflect.Kind) : Field := .mk name true kind [] false []

/-- An exported field named `name` that is a struct with the fields `fields`. -/
def structField (name : String) (fields : List Field) : Field :=
  .mk name true .Struct [] false fields

/-- The field `Postgres Postgres` of `multiconfig_test.go`. -/
def postgresField : Field :=
  structField "Postgres"
    [leafField "Enabled" .Bool,
     .mk "Port" true .Uint16 [("required", "true"), ("customRequired", "yes")] false [],
     .mk "Hosts" true .Slice [("required", "true")] false [],
     .mk "DBName" true .String [("default", "configdb")] false [],
     leafField "AvailabilityRatio" .Float64,
     .mk "unexported" false .String [] false []]

/-- The record `NestedServer` of `multiconfig_test.go`. -/
def nestedServer : Struct :=
  ⟨"NestedServer",
    [.mk "Name" true .String [("required", "true")] false [],
     structField "DatabaseOptions" [postgresField]]⟩

/-- The loader of `TestStructSeparatorFlags`. -/
def separatorLoader : FlagLoader := { plainLoader with StructSeparator := "." }

/-- The loader of `TestFlattenFlags`. -/
def flattenLoader : FlagLoader := { plainLoader with Flatten := true }

/-- The loader of `TestFlattenAndCamelCaseFlags`. -/
def flattenCamelLoader : FlagLoader := { plainLoader with Flatten := true, CamelCase := true }

/-- A loader with `Flatten` and the prefix "P". -/
def flattenPrefixLoader : FlagLoader := { plainLoader with Flatten := true, Prefix := "P" }

/-- The loader of `TestCamelCaseFlags`. -/
def camelLoader : FlagLoader := { plainLoader with CamelCase := true }

/-- The loader of `TestCamelCaseAndStructSeparator`. -/
def camelSeparatorLoader : FlagLoader :=
  { plainLoader with CamelCase := true, StructSeparator := "." }

/-- The record `CamelCaseServer` of `multiconfig_test.go`. -/
def camelCaseServer : Struct :=
  ⟨"CamelCaseServer",
    [leafField "AccessKey" .String,
     leafField "Normal" .String,
     .mk "DBName" true .String [("default", "configdb")] false [],
     leafField "AvailabilityRatio" .Float64]⟩

/-- A record with two fields whose names differ in case only: `struct{Foo int; FOO int}`. -/
def caseRecord : Struct := ⟨"C", [leafField "Foo" .Int, leafField "FOO" .Int]⟩

/-- The record `C{A{Foo int}; B{Foo int}}`. -/
def duplicateRecord : Struct :=
  ⟨"C", [structField "A" [leafField "Foo" .Int], structField "B" [leafField "Foo" .Int]]⟩

/-- An environment without program arguments, whose `Parse` returns nil. -/
def quietEnv : Env := ⟨[], fun _ _ => .ret none⟩

/-- The loader of `TestCustomUsageFunc`. -/
def usageFuncLoader : FlagLoader :=
  { plainLoader with FlagUsageFunc := some (fun _ => "foobar help") }

/-- The record of `TestCustomUsageTag`, with the tag text "tag help". -/
def taggedRecord : Struct :=
  ⟨"", [.mk "Foobar" true .String [("flagUsage", "tag help")] false []]⟩

/-- The flag set `camelLoader` builds for `camelCaseServer`. -/
def camelFlagSet : FlagSet :=
  ⟨"CamelCaseServer", .ContinueOnError, resolved camelLoader camelCaseServer⟩

/-- The embedded field `*url.URL` of the type `URL` of `flag_test.go`. -/
def urlField : Field := .mk "URL" true .Ptr [] false []

/-- A field of type `*URL`, as the fields of `Endpoint` in `flag_test.go`: its kind is
pointer, and its type has the `Set` method. -/
def pointerURL (name : String) : Field :=
  .mk name true .Ptr [("required", "true")] true [urlField]

/-- A field of type `URL`, by value: its kind is struct, and `Set` is declared on `*URL`. -/
def valueURL (name : String) : Field :=
  .mk name true .Struct [("required", "true")] true [urlField]

/-- The record `Endpoint` of `flag_test.go`. -/
def endpoint : Struct := ⟨"Endpoint", [pointerURL "Private", pointerURL "Public"]⟩

/-- The record `Endpoint` with the fields declared as `URL` instead of `*URL`. -/
def valueEndpoint : Struct := ⟨"Endpoint", [valueURL "Private", valueURL "Public"]⟩

/-- A process started with a test flag and its value, as under `go test`; every `Set`
succeeds. -/
def testFlagsEnv : Env := goEnv ["-test.timeout", "10s"] (fun _ _ => none)

/-- The flag set a loader without options builds for `CamelCaseServer`. -/
def camelFlagSetPlain : FlagSet :=
  ⟨"CamelCaseServer", .ContinueOnError, resolved plainLoader camelCaseServer⟩

/-- The flag set a loader without options builds for `taggedRecord`. -/
def foobarFlagSet : FlagSet :=
  ⟨"", .ContinueOnError, resolved plainLoader taggedRecord⟩

/-- The flag set the loader of `TestStructSeparatorFlags` builds for `NestedServer`. -/
def nestedFlagSet : FlagSet :=
  ⟨"NestedServer", .ContinueOnError, resolved separatorLoader nestedServer⟩

/-- The argument list of `TestStructSeparatorFlags`. -/
def separatorArgs : List String :=
  ["--name", "koding",
   "--databaseoptions.postgres.enabled",
   "--databaseoptions.postgres.port", "5432",
   "--databaseoptions.postgres.hosts", "192.168.2.1,192.168.2.2,192.168.2.3",
   "--databaseoptions.postgres.dbname", "configdb",
   "--databaseoptions.postgres.availabilityratio", "8.23"]

/-- The record of `TestMapFlagSupport`. -/
def mapRecord : Struct :=
  ⟨"", [leafField "MapStringInt" .Map, leafField "MapStringString" .Map]⟩

/-- The record `FlattenedServer` of `multiconfig_test.go`. -/
def flattenedServer : Struct := ⟨"FlattenedServer", [postgresField]⟩

/-! ## Theorems -/

/-! ### The walk of `processField` is the definition of its flags in order -/

theorem defineFlags_append (f : FlagLoader) (a b : List flag.Flag) (fs : FlagSet) :
    defineFlags f (a ++ b) fs =
      match defineFlags f a fs with
      | .panic msg => .panic msg
      | .ret fs1 => defineFlags f b fs1 := by
  induction a generalizing fs with
  | nil => simp [defineFlags]
  | cons fl rest ih =>
    simp only [List.cons_append, defineFlags]
    cases h : defineFlag f fl fs with
    | panic msg => simp
    | ret fs1 => simp [ih]

theorem processLeaf_eq (f : FlagLoader) (pfx : String) (field : Field) (fs : FlagSet) :
    processLeaf f pfx field fs = noError (defineFlag f (leafFlag f pfx field) fs) := by
  simp only [processLeaf, defineFlag, leafFlag, FlagLoader.segment]
  cases h1 : (if f.Flatten = true then
      fs.VisitAll (duplicateCheck (flagName (pfx ++
        if f.CamelCase = true then strings.Join (camelcase.Split field.Name) "-" else field.Name)))
      else Outcome.ret ()) with
  | panic msg => simp [noError]
  | ret u =>
    simp only []
    cases h2 : fs.Var (newFieldValue field) (flagName (pfx ++
        if f.CamelCase = true then strings.Join (camelcase.Split field.Name) "-" else field.Name))
        (f.flagUsage (if f.CamelCase = true then strings.Join (camelcase.Split field.Name) "-"
          else field.Name) field) with
    | panic msg => simp [noError]
    | ret fs1 => simp [noError]

theorem processStruct_cons (f : FlagLoader) (pfx name : String) (ff : Field)
    (rest : List Field) (fs : FlagSet) :
    processStruct f pfx name (ff :: rest) fs =
      match processField f (f.childPrefix pfx name) ff fs with
      | .panic msg => .panic msg
      | .ret (some err, fs1) => .ret (some err, fs1)
      | .ret (none, fs1) => processStruct f pfx name rest fs1 := by
  cases hF : f.Flatten <;> simp [processStruct, FlagLoader.childPrefix, FlagLoader.segment, hF]

theorem processField_leaf (f : FlagLoader) (pfx name : String) (kind : reflect.Kind)
    (tags : List (String × String)) (v : Bool) (fields : List Field) (fs : FlagSet)
    (hk : kind ≠ reflect.Kind.Struct) :
    processField f pfx (.mk name true kind tags v fields) fs =
      processLeaf f (f.extend pfx) (.mk name true kind tags v fields) fs := by
  cases kind <;> first | exact absurd rfl hk | simp [processField, FlagLoader.extend]

theorem flagsOf_leaf (f : FlagLoader) (pfx name : String) (kind : reflect.Kind)
    (tags : List (String × String)) (v : Bool) (fields : List Field)
    (hk : kind ≠ reflect.Kind.Struct) :
    flagsOf f pfx (.mk name true kind tags v fields) =
      [leafFlag f (f.extend pfx) (.mk name true kind tags v fields)] := by
  cases kind <;> first | exact absurd rfl hk | simp [flagsOf]

mutual

theorem processField_eq (f : FlagLoader) (pfx : String) (field : Field) (fs : FlagSet) :
    processField f pfx field fs = noError (defineFlags f (flagsOf f pfx field) fs) := by
  match field with
  | .mk name exported kind tags v fields =>
    cases exported with
    | false => simp [processField, flagsOf, defineFlags, noError]
    | true =>
      by_cases hk : kind = reflect.Kind.Struct
      · subst hk
        simp only [processField, flagsOf]
        have := processStruct_eq f (if pfx ≠ "" then pfx ++ f.StructSeparator else pfx)
          name fields fs
        simpa [FlagLoader.extend] using this
      · rw [processField_leaf f pfx name kind tags v fields fs hk,
          flagsOf_leaf f pfx name kind tags v fields hk, processLeaf_eq]
        simp only [defineFlags]
        cases defineFlag f (leafFlag f (f.extend pfx) (.mk name true kind tags v fields)) fs <;>
          rfl

theorem processStruct_eq (f : FlagLoader) (pfx name : String) (fields : List Field)
    (fs : FlagSet) :
    processStruct f pfx name fields fs =
      noError (defineFlags f (flagsOfList f (f.childPrefix pfx name) fields) fs) := by
  match fields with
  | [] => simp [processStruct, flagsOfList, defineFlags, noError]
  | ff :: rest =>
    rw [processStruct_cons, flagsOfList, defineFlags_append,
      processField_eq f (f.childPrefix pfx name) ff fs]
    cases h : defineFlags f (flagsOf f (f.childPrefix pfx name) ff) fs with
    | panic msg => simp [noError]
    | ret fs1 => simp [noError, processStruct_eq f pfx name rest fs1]

end

theorem processFields_eq (f : FlagLoader) (fields : List Field) (fs : FlagSet) :
    processFields f fields fs = noError (defineFlags f (flagsOfList f f.Prefix fields) fs) := by
  induction fields generalizing fs with
  | nil => simp [processFields, flagsOfList, defineFlags, noError]
  | cons field rest ih =>
    rw [processFields, flagsOfList, defineFlags_append, processField_eq]
    cases h : defineFlags f (flagsOf f f.Prefix field) fs with
    | panic msg => simp [noError]
    | ret fs1 => simp [noError, ih]

theorem defineFlags_congr (f g : FlagLoader) (h : f.Flatten = g.Flatten)
    (flags : List flag.Flag) (fs : FlagSet) : defineFlags f flags fs = defineFlags g flags fs := by
  induction flags generalizing fs with
  | nil => simp [defineFlags]
  | cons fl rest ih => simp [defineFlags, defineFlag, h, ih]

theorem register_eq (f : FlagLoader) (s : Struct) :
    register f s = registered f s (flagsOfList f.defaulted f.Prefix s.Fields) := by
  have hd : (if f.StructSeparator = "" then { f with StructSeparator := "-" } else f)
      = f.defaulted := rfl
  have hP : f.defaulted.Prefix = f.Prefix := by
    unfold FlagLoader.defaulted; split <;> rfl
  have hE : f.defaulted.ErrorHandling = f.ErrorHandling := by
    unfold FlagLoader.defaulted; split <;> rfl
  have hF : f.defaulted.Flatten = f.Flatten := by
    unfold FlagLoader.defaulted; split <;> rfl
  simp only [register, registered, hd, processFields_eq, hP, hE]
  rw [defineFlags_congr f.defaulted f hF]
  cases defineFlags f (flagsOfList f.defaulted f.Prefix s.Fields)
    (flag.NewFlagSet s.Name f.ErrorHandling) <;> simp [noError]

/-! ### Strings -/

theorem append_ne_empty_left (a b : String) (h : a ≠ "") : a ++ b ≠ "" := by
  intro hab
  apply h
  have h1 : (a ++ b).data = [] := by rw [hab]
  rw [String.data_append] at h1
  exact String.ext (List.append_eq_nil.mp h1).1

theorem intercalate_go_snoc (acc sep : String) (l : List String) (x : String) :
    String.intercalate.go acc sep (l ++ [x]) = String.intercalate.go acc sep l ++ sep ++ x := by
  induction l generalizing acc with
  | nil => simp [String.intercalate.go]
  | cons a rest ih => simp [String.intercalate.go, ih]

theorem intercalate_go_ne_empty (acc sep : String) (l : List String) (h : acc ≠ "") :
    String.intercalate.go acc sep l ≠ "" := by
  induction l generalizing acc with
  | nil => simpa [String.intercalate.go] using h
  | cons a rest ih =>
    simp only [String.intercalate.go]
    exact ih _ (append_ne_empty_left _ _ (append_ne_empty_left _ _ h))

theorem Join_nil (sep : String) : strings.Join [] sep = "" := rfl

theorem Join_singleton (x sep : String) : strings.Join [x] sep = x := by
  simp [strings.Join, String.intercalate, String.intercalate.go]

theorem Join_snoc (q : String) (Q : List String) (x sep : String) :
    strings.Join ((q :: Q) ++ [x]) sep = strings.Join (q :: Q) sep ++ sep ++ x := by
  simp only [strings.Join, String.intercalate, List.cons_append]
  exact intercalate_go_snoc q sep Q x

/-- A prefix that is the join of the segments `Q` and is empty only when `Q` is: what
`processField` relies on when it tests the prefix for emptiness. -/
theorem extend_Join (f : FlagLoader) (Q : List String)
    (hQ : Q = [] ∨ strings.Join Q f.StructSeparator ≠ "") (x : String) :
    f.extend (strings.Join Q f.StructSeparator) ++ x
      = strings.Join (Q ++ [x]) f.StructSeparator := by
  cases Q with
  | nil => simp [FlagLoader.extend, Join_nil, Join_singleton]
  | cons q Q =>
    have hne : strings.Join (q :: Q) f.StructSeparator ≠ "" := by
      rcases hQ with h | h
      · cases h
      · exact h
    rw [Join_snoc]
    simp [FlagLoader.extend, hne]

theorem Join_snoc_ne_empty (Q : List String) (sep x : String)
    (hQ : Q = [] ∨ strings.Join Q sep ≠ "") (hx : x ≠ "") :
    strings.Join (Q ++ [x]) sep ≠ "" := by
  cases Q with
  | nil => simpa [Join_singleton] using hx
  | cons q Q =>
    have hne : strings.Join (q :: Q) sep ≠ "" := by
      rcases hQ with h | h
      · cases h
      · exact h
    rw [Join_snoc]
    exact append_ne_empty_left _ _ (append_ne_empty_left _ _ hne)

/-! ### The walk and the leaves -/

theorem flagsOf_struct (f : FlagLoader) (pfx name : String) (tags : List (String × String))
    (v : Bool) (fields : List Field) :
    flagsOf f pfx (.mk name true .Struct tags v fields)
      = flagsOfList f (f.childPrefix (f.extend pfx) name) fields := by
  simp [flagsOf]

theorem flagsOf_unexported (f : FlagLoader) (pfx name : String) (kind : reflect.Kind)
    (tags : List (String × String)) (v : Bool) (fields : List Field) :
    flagsOf f pfx (.mk name false kind tags v fields) = [] := by
  simp [flagsOf]

theorem leavesOf_struct (name : String) (tags : List (String × String))
    (v : Bool) (fields : List Field) :
    leavesOf (.mk name true .Struct tags v fields)
      = (leavesOfList fields).map (Leaf.under name) := by
  simp [leavesOf]

theorem leavesOf_leaf (name : String) (kind : reflect.Kind) (tags : List (String × String))
    (v : Bool) (fields : List Field) (hk : kind ≠ reflect.Kind.Struct) :
    leavesOf (.mk name true kind tags v fields) = [⟨[], .mk name true kind tags v fields⟩] := by
  cases kind <;> first | exact absurd rfl hk | simp [leavesOf]

mutual

theorem flagsOf_length (f : FlagLoader) (pfx : String) (field : Field) :
    (flagsOf f pfx field).length = (leavesOf field).length := by
  match field with
  | .mk name exported kind tags v fields =>
    cases exported with
    | false => simp [flagsOf, leavesOf]
    | true =>
      by_cases hk : kind = reflect.Kind.Struct
      · subst hk
        rw [flagsOf_struct, leavesOf_struct, List.length_map]
        exact flagsOfList_length f _ fields
      · rw [flagsOf_leaf f pfx name kind tags v fields hk, leavesOf_leaf _ _ _ _ _ hk]
        rfl

theorem flagsOfList_length (f : FlagLoader) (pfx : String) (fields : List Field) :
    (flagsOfList f pfx fields).length = (leavesOfList fields).length := by
  match fields with
  | [] => simp [flagsOfList, leavesOfList]
  | ff :: rest =>
    simp only [flagsOfList, leavesOfList, List.length_append]
    rw [flagsOf_length f pfx ff, flagsOfList_length f pfx rest]

end

theorem flagNamed_under (f : FlagLoader) (Q : List String) (name : String) (l : Leaf) :
    flagNamed f (nameFrom f Q) (Leaf.under name l)
      = flagNamed f (nameFrom f (Q ++ [f.segment name])) l := by
  simp [flagNamed, nameFrom, Leaf.under, Leaf.path]

mutual

theorem flagsOf_joined (f : FlagLoader) (hF : f.Flatten = false) (Q : List String)
    (hQ : Q = [] ∨ strings.Join Q f.StructSeparator ≠ "") (field : Field)
    (hn : ∀ l ∈ leavesOf field, ∀ a ∈ l.ancestors, f.segment a ≠ "") :
    flagsOf f (strings.Join Q f.StructSeparator) field
      = (leavesOf field).map (flagNamed f (nameFrom f Q)) := by
  match field with
  | .mk name exported kind tags v fields =>
    cases exported with
    | false => simp [flagsOf, leavesOf]
    | true =>
      by_cases hk : kind = reflect.Kind.Struct
      · subst hk
        rw [flagsOf_struct, leavesOf_struct] at *
        simp only [FlagLoader.childPrefix, hF, List.map_map, Bool.false_eq_true, if_false]
        by_cases hl : leavesOfList fields = []
        · have h0 := flagsOfList_length f
            (f.extend (strings.Join Q f.StructSeparator) ++ f.segment name) fields
          rw [hl] at h0
          simp [hl, List.length_eq_zero.mp h0]
        · have hseg : f.segment name ≠ "" := by
            obtain ⟨l, hl1⟩ := List.exists_mem_of_ne_nil _ hl
            apply hn (Leaf.under name l)
            · exact List.mem_map_of_mem _ hl1
            · simp [Leaf.under]
          rw [extend_Join f Q hQ]
          have hn1 : ∀ l ∈ leavesOfList fields, ∀ a ∈ l.ancestors, f.segment a ≠ "" := by
            intro l hl1 a ha
            apply hn (Leaf.under name l)
            · exact List.mem_map_of_mem _ hl1
            · simp [Leaf.under, ha]
          rw [flagsOfList_joined f hF (Q ++ [f.segment name])
            (Or.inr (Join_snoc_ne_empty Q _ _ hQ hseg)) fields hn1]
          apply List.map_congr_left
          intro l _
          exact (flagNamed_under f Q name l).symm
      · rw [flagsOf_leaf f _ name kind tags v fields hk]
        rw [leavesOf_leaf _ _ _ _ _ hk]
        simp only [List.map_cons, List.map_nil, leafFlag, flagNamed, nameFrom, Leaf.path,
          flagName, List.nil_append, List.map_cons, List.map_nil, Field.Name]
        rw [extend_Join f Q hQ]

theorem flagsOfList_joined (f : FlagLoader) (hF : f.Flatten = false) (Q : List String)
    (hQ : Q = [] ∨ strings.Join Q f.StructSeparator ≠ "") (fields : List Field)
    (hn : ∀ l ∈ leavesOfList fields, ∀ a ∈ l.ancestors, f.segment a ≠ "") :
    flagsOfList f (strings.Join Q f.StructSeparator) fields
      = (leavesOfList fields).map (flagNamed f (nameFrom f Q)) := by
  match fields with
  | [] => simp [flagsOfList, leavesOfList]
  | ff :: rest =>
    simp only [flagsOfList, leavesOfList, List.map_append]
    rw [flagsOf_joined f hF Q hQ ff (fun l hl => hn l (by simp [leavesOfList, hl])),
      flagsOfList_joined f hF Q hQ rest (fun l hl => hn l (by simp [leavesOfList, hl]))]

end

/-! ### The loader after the separator default -/

theorem defaulted_Prefix (f : FlagLoader) : f.defaulted.Prefix = f.Prefix := by
  unfold FlagLoader.defaulted; split <;> rfl

theorem defaulted_Flatten (f : FlagLoader) : f.defaulted.Flatten = f.Flatten := by
  unfold FlagLoader.defaulted; split <;> rfl

theorem defaulted_CamelCase (f : FlagLoader) : f.defaulted.CamelCase = f.CamelCase := by
  unfold FlagLoader.defaulted; split <;> rfl

theorem defaulted_StructSeparator (f : FlagLoader) :
    f.defaulted.StructSeparator = separator f := by
  unfold FlagLoader.defaulted separator; split <;> rfl

theorem defaulted_segment (f : FlagLoader) : f.defaulted.segment = f.segment := by
  funext name
  simp [FlagLoader.segment, defaulted_CamelCase]

theorem defaulted_flagUsage (f : FlagLoader) : f.defaulted.flagUsage = f.flagUsage := by
  unfold FlagLoader.defaulted; split <;> rfl

theorem defaulted_flagNamed (f : FlagLoader) (name : Leaf → String) :
    flagNamed f.defaulted name = flagNamed f name := by
  funext l
  simp [flagNamed, defaulted_segment, defaulted_flagUsage]

theorem prefix_eq_Join (f : FlagLoader) (sep : String) :
    f.Prefix = strings.Join (prefixSegments f) sep
      ∧ (prefixSegments f = [] ∨ strings.Join (prefixSegments f) sep ≠ "") := by
  by_cases h : f.Prefix = ""
  · simp [prefixSegments, h, Join_nil]
  · simp [prefixSegments, h, Join_singleton]

/-- Without `Flatten` the registration phase of `Load` defines, in order, one flag per
leaf, named by the join of the prefix and the segments of the leaf's path. -/
theorem register_nonflatten (f : FlagLoader) (s : Struct) (hF : f.Flatten = false)
    (hn : ∀ l ∈ leaves s, ∀ a ∈ l.ancestors, f.segment a ≠ "") :
    register f s = registered f s ((leaves s).map (flagNamed f (segmentName f))) := by
  rw [register_eq]
  congr 1
  obtain ⟨hP, hQ⟩ := prefix_eq_Join f f.defaulted.StructSeparator
  have hF1 : f.defaulted.Flatten = false := by rw [defaulted_Flatten, hF]
  have hn1 : ∀ l ∈ leavesOfList s.Fields, ∀ a ∈ l.ancestors, f.defaulted.segment a ≠ "" := by
    rw [defaulted_segment]; exact hn
  have h := flagsOfList_joined f.defaulted hF1 (prefixSegments f) hQ s.Fields hn1
  rw [← hP] at h
  rw [h, defaulted_flagNamed]
  apply List.map_congr_left
  intro l _
  simp [flagNamed, nameFrom, segmentName, defaulted_segment, defaulted_StructSeparator]

theorem defineFlag_formal (f : FlagLoader) (fl : flag.Flag) (fs fs1 : FlagSet)
    (h : defineFlag f fl fs = .ret fs1) :
    fs1.formal = fs.formal ++ [fl] ∧ fs1.name = fs.name
      ∧ fs1.errorHandling = fs.errorHandling := by
  unfold defineFlag at h
  split at h
  · cases h
  · unfold FlagSet.Var at h
    split at h
    · cases h
    · split at h
      · cases h
      · split at h
        · split at h <;> cases h
        · cases h
          exact ⟨rfl, rfl, rfl⟩

theorem defineFlags_formal (f : FlagLoader) (flags : List flag.Flag) (fs fs1 : FlagSet)
    (h : defineFlags f flags fs = .ret fs1) :
    fs1.formal = fs.formal ++ flags ∧ fs1.name = fs.name
      ∧ fs1.errorHandling = fs.errorHandling := by
  induction flags generalizing fs with
  | nil =>
    simp only [defineFlags, Outcome.ret.injEq] at h
    subst h
    simp
  | cons fl rest ih =>
    simp only [defineFlags] at h
    cases hd : defineFlag f fl fs with
    | panic msg => rw [hd] at h; cases h
    | ret fs2 =>
      rw [hd] at h
      obtain ⟨h1, h2, h3⟩ := defineFlag_formal f fl fs fs2 hd
      obtain ⟨h4, h5, h6⟩ := ih fs2 h
      refine ⟨?_, ?_, ?_⟩
      · rw [h4, h1]; simp
      · rw [h5, h2]
      · rw [h6, h3]

/-- When the registration phase returns after defining `flags`, the returned `error` is
nil and the flag set holds exactly `flags`, in order. -/
theorem registered_ret (f : FlagLoader) (s : Struct) (flags : List flag.Flag)
    (f1 : FlagLoader) (err : error) (fs : FlagSet)
    (h : registered f s flags = .ret (f1, err, fs)) :
    err = none ∧ fs.formal = flags ∧ f1.flagSet = some fs := by
  unfold registered at h
  cases hd : defineFlags f flags (flag.NewFlagSet s.Name f.ErrorHandling) with
  | panic msg => rw [hd] at h; cases h
  | ret fs2 =>
    rw [hd] at h
    simp only [Outcome.ret.injEq, Prod.mk.injEq] at h
    obtain ⟨h1, h2, h3⟩ := h
    subst h3
    have := (defineFlags_formal f flags _ fs2 hd).1
    refine ⟨h2.symm, by simpa [flag.NewFlagSet] using this, ?_⟩
    rw [← h1]

/-! ### C1 -/

/-- C1. Non-flatten flag naming: with `Flatten` and `CamelCase` unset, and the names of
the structs a leaf lies in non-empty, the registration phase of `Load` defines, in
declaration order, exactly one flag per exported leaf field, under the name
`lower(join(P ++ [a1, ..., an, f], sep))`, where `P` is `[Prefix]` for a non-empty prefix
and empty otherwise and `sep` is `StructSeparator`, or "-" when that is empty; when the
phase returns, the flag set holds exactly these flags. -/
theorem nonflatten_flag_names (f : FlagLoader) (s : Struct)
    (hF : f.Flatten = false) (hC : f.CamelCase = false)
    (hn : ∀ l ∈ leaves s, ∀ a ∈ l.ancestors, a ≠ "") :
    register f s = registered f s ((leaves s).map (flagNamed f (joinedName f)))
      ∧ ∀ f1 err fs, register f s = .ret (f1, err, fs) →
          err = none ∧ fs.formal = (leaves s).map (flagNamed f (joinedName f)) := by
  have hseg : f.segment = id := by
    funext name
    simp [FlagLoader.segment, hC]
  have hname : segmentName f = joinedName f := by
    funext l
    simp [segmentName, joinedName, hseg]
  have h := register_nonflatten f s hF (by rw [hseg]; exact hn)
  rw [hname] at h
  refine ⟨h, ?_⟩
  intro f1 err fs hr
  rw [h] at hr
  obtain ⟨h1, h2, _⟩ := registered_ret f s _ f1 err fs hr
  exact ⟨h1, h2⟩

theorem nonflatten_flag_names_witness :
    (separatorLoader.Flatten = false ∧ separatorLoader.CamelCase = false
      ∧ ∀ l ∈ leaves nestedServer, ∀ a ∈ l.ancestors, a ≠ "")
    ∧ (register separatorLoader nestedServer
        = registered separatorLoader nestedServer
            ((leaves nestedServer).map (flagNamed separatorLoader (joinedName separatorLoader)))
      ∧ ∀ f1 err fs, register separatorLoader nestedServer = .ret (f1, err, fs) →
          err = none ∧ fs.formal
            = (leaves nestedServer).map (flagNamed separatorLoader (joinedName separatorLoader)))
    ∧ (register separatorLoader nestedServer).returned?.map (fun r => r.2.2.names)
        = some ["name", "databaseoptions.postgres.enabled", "databaseoptions.postgres.port",
            "databaseoptions.postgres.hosts", "databaseoptions.postgres.dbname",
            "databaseoptions.postgres.availabilityratio"] :=
  ⟨⟨rfl, rfl, by decide⟩,
    nonflatten_flag_names separatorLoader nestedServer rfl rfl (by decide), by decide⟩

/-! ### C2 -/

theorem flagNamed_flatten_under (f : FlagLoader) (name : String) (l : Leaf) :
    flagNamed f (flattenName f) (Leaf.under name l) = flagNamed f (flattenName f) l := rfl

theorem extend_empty (f : FlagLoader) : f.extend "" = "" := by
  simp [FlagLoader.extend]

mutual

theorem flagsOf_flatten (f : FlagLoader) (hF : f.Flatten = true) (field : Field) :
    flagsOf f "" field = (leavesOf field).map (flagNamed f (flattenName f)) := by
  match field with
  | .mk name exported kind tags v fields =>
    cases exported with
    | false => simp [flagsOf, leavesOf]
    | true =>
      by_cases hk : kind = reflect.Kind.Struct
      · subst hk
        rw [flagsOf_struct, leavesOf_struct, extend_empty, List.map_map]
        simp only [FlagLoader.childPrefix, hF, if_true]
        rw [flagsOfList_flatten f hF fields]
        apply List.map_congr_left
        intro l _
        rfl
      · rw [flagsOf_leaf f _ name kind tags v fields hk, leavesOf_leaf _ _ _ _ _ hk,
          extend_empty]
        simp [leafFlag, flagNamed, flattenName, flagName]

theorem flagsOfList_flatten (f : FlagLoader) (hF : f.Flatten = true) (fields : List Field) :
    flagsOfList f "" fields = (leavesOfList fields).map (flagNamed f (flattenName f)) := by
  match fields with
  | [] => simp [flagsOfList, leavesOfList]
  | ff :: rest =>
    simp only [flagsOfList, leavesOfList, List.map_append]
    rw [flagsOf_flatten f hF ff, flagsOfList_flatten f hF rest]

end

theorem defineFlag_congr (f g : FlagLoader) (h : f.Flatten = g.Flatten)
    (fl : flag.Flag) (fs : FlagSet) : defineFlag f fl fs = defineFlag g fl fs := by
  simp [defineFlag, h]

/-- The call `Load` makes for a top-level leaf field defines the one flag of that field,
under the loader's prefix with the separator appended when the prefix is non-empty. -/
theorem processField_topLevel (f : FlagLoader) (field : Field) (fs : FlagSet)
    (he : field.IsExported = true) (hk : field.Kind ≠ reflect.Kind.Struct) :
    processField f.defaulted f.Prefix field fs
      = noError (defineFlag f (leafFlag f.defaulted (f.defaulted.extend f.Prefix) field) fs) := by
  cases field with
  | mk name exported kind tags v fields =>
    simp only [Field.IsExported] at he
    simp only [Field.Kind] at hk
    subst he
    rw [processField_leaf _ _ _ _ _ _ _ _ hk, processLeaf_eq,
      defineFlag_congr f.defaulted f (defaulted_Flatten f)]

theorem leafFlag_topLevel (f : FlagLoader) (field : Field) (hP : f.Prefix ≠ "") :
    leafFlag f.defaulted (f.defaulted.extend f.Prefix) field = topLevelFlag f field := by
  simp [leafFlag, topLevelFlag, topLevelName, FlagLoader.extend, hP, flagName,
    defaulted_segment, defaulted_flagUsage, defaulted_StructSeparator]

theorem flagsOfList_append (f : FlagLoader) (pfx : String) (a b : List Field) :
    flagsOfList f pfx (a ++ b) = flagsOfList f pfx a ++ flagsOfList f pfx b := by
  induction a with
  | nil => simp [flagsOfList]
  | cons ff rest ih => simp [flagsOfList, ih]

mutual

theorem flagsOf_renameStruct (f : FlagLoader) (hF : f.Flatten = true) (g : String → String)
    (pfx : String) (field : Field) :
    flagsOf f pfx (renameStructField g field) = flagsOf f pfx field := by
  match field with
  | .mk name exported kind tags v fields =>
    by_cases hk : kind = reflect.Kind.Struct
    · subst hk
      cases exported with
      | false => simp [renameStructField, flagsOf]
      | true =>
        rw [renameStructField, flagsOf_struct, flagsOf_struct]
        simp only [FlagLoader.childPrefix, hF, if_true]
        exact flagsOfList_renameStruct f hF g _ fields
    · have : renameStructField g (.mk name exported kind tags v fields)
          = .mk name exported kind tags v fields := by
        cases kind <;> first | exact absurd rfl hk | simp [renameStructField]
      rw [this]

theorem flagsOfList_renameStruct (f : FlagLoader) (hF : f.Flatten = true)
    (g : String → String) (pfx : String) (fields : List Field) :
    flagsOfList f pfx (renameStructFields g fields) = flagsOfList f pfx fields := by
  match fields with
  | [] => simp [renameStructFields]
  | ff :: rest =>
    simp only [renameStructFields, flagsOfList]
    rw [flagsOf_renameStruct f hF g pfx ff, flagsOfList_renameStruct f hF g pfx rest]

end

/-- The flag resolved for a top-level leaf field under a non-empty prefix. -/
theorem flagsOf_topLevel (f : FlagLoader) (field : Field) (hP : f.Prefix ≠ "")
    (he : field.IsExported = true) (hk : field.Kind ≠ reflect.Kind.Struct) :
    flagsOf f.defaulted f.Prefix field = [topLevelFlag f field] := by
  cases field with
  | mk name exported kind tags v fields =>
    simp only [Field.IsExported] at he
    simp only [Field.Kind] at hk
    subst he
    rw [flagsOf_leaf _ _ _ _ _ _ _ hk, leafFlag_topLevel f _ hP]

/-- C2, amended. Flatten flag naming: with `Flatten` set, the names of the ancestor
structs contribute nothing to the flags of the leaves, since the registration phase of
`Load` has the same outcome however the struct fields of the record are renamed.  Under
an empty prefix the phase defines, in declaration order, one flag per exported leaf field
at any nesting depth, named `lower(s)` for the leaf's own segment `s` (its name, or its
camel-case words joined with "-" under `CamelCase`), so that the depth contributes
nothing either.  Under a non-empty prefix the phase defines the flags resolved for the
record in order, and every exported top-level leaf field contributes, at its place in
that order, exactly the flag `lower(Prefix + sep + s)`, which the flag set holds when the
phase returns; the name of a nested leaf under a non-empty prefix is left open. -/
theorem flatten_flag_names (f : FlagLoader) (s : Struct) (hF : f.Flatten = true) :
    (∀ g : String → String, register f (renameStructs g s) = register f s)
    ∧ (f.Prefix = "" →
      register f s = registered f s ((leaves s).map (flagNamed f (flattenName f)))
      ∧ ∀ f1 err fs, register f s = .ret (f1, err, fs) →
          err = none ∧ fs.formal = (leaves s).map (flagNamed f (flattenName f)))
    ∧ (f.Prefix ≠ "" →
      register f s = registered f s (resolved f s)
      ∧ (∀ (pre post : List Field) (field : Field), s.Fields = pre ++ field :: post →
        field.IsExported = true → field.Kind ≠ reflect.Kind.Struct →
        resolved f s
          = flagsOfList f.defaulted f.Prefix pre
            ++ topLevelFlag f field :: flagsOfList f.defaulted f.Prefix post)
      ∧ (∀ f1 err fs, register f s = .ret (f1, err, fs) →
        ∀ field ∈ s.Fields, field.IsExported = true → field.Kind ≠ reflect.Kind.Struct →
        topLevelFlag f field ∈ fs.formal)
      ∧ (∀ (field : Field) (fs : FlagSet),
        field.IsExported = true → field.Kind ≠ reflect.Kind.Struct →
        processField f.defaulted f.Prefix field fs
          = noError (defineFlag f (topLevelFlag f field) fs))) := by
  have hFd : f.defaulted.Flatten = true := by rw [defaulted_Flatten, hF]
  refine ⟨?_, ?_, ?_⟩
  · intro g
    rw [register_eq, register_eq]
    simp only [renameStructs, flagsOfList_renameStruct f.defaulted hFd g]
    rfl
  · intro hP
    have h : register f s = registered f s ((leaves s).map (flagNamed f (flattenName f))) := by
      rw [register_eq, hP, flagsOfList_flatten f.defaulted hFd]
      congr 1
      rw [defaulted_flagNamed]
      apply List.map_congr_left
      intro l _
      simp [flagNamed, flattenName, defaulted_segment]
    refine ⟨h, ?_⟩
    intro f1 err fs hr
    rw [h] at hr
    obtain ⟨h1, h2, _⟩ := registered_ret f s _ f1 err fs hr
    exact ⟨h1, h2⟩
  · intro hP
    have hsplit : ∀ (pre post : List Field) (field : Field), s.Fields = pre ++ field :: post →
        field.IsExported = true → field.Kind ≠ reflect.Kind.Struct →
        resolved f s
          = flagsOfList f.defaulted f.Prefix pre
            ++ topLevelFlag f field :: flagsOfList f.defaulted f.Prefix post := by
      intro pre post field hs he hk
      unfold resolved
      rw [hs, flagsOfList_append, flagsOfList, flagsOf_topLevel f field hP he hk]
      rfl
    refine ⟨register_eq f s, hsplit, ?_, ?_⟩
    · intro f1 err fs hr field hmem he hk
      rw [register_eq] at hr
      obtain ⟨_, h2, _⟩ := registered_ret f s _ f1 err fs hr
      obtain ⟨pre, post, hs⟩ := List.append_of_mem hmem
      have := hsplit pre post field hs he hk
      unfold resolved at this
      rw [h2, this]
      simp
    · intro field fs he hk
      rw [processField_topLevel f field fs he hk, leafFlag_topLevel f field hP]

theorem flatten_flag_names_witness :
    flattenCamelLoader.Flatten = true ∧ flattenCamelLoader.Prefix = ""
    ∧ register flattenCamelLoader flattenedServer
        = registered flattenCamelLoader flattenedServer
            ((leaves flattenedServer).map
              (flagNamed flattenCamelLoader (flattenName flattenCamelLoader)))
    ∧ (register flattenCamelLoader flattenedServer).returned?.map (fun r => r.2.2.names)
        = some ["enabled", "port", "hosts", "db-name", "availability-ratio"]
    ∧ (register flattenLoader flattenedServer).returned?.map (fun r => r.2.2.names)
        = some ["enabled", "port", "hosts", "dbname", "availabilityratio"]
    ∧ (flattenPrefixLoader.Flatten = true ∧ flattenPrefixLoader.Prefix ≠ ""
      ∧ register flattenPrefixLoader camelCaseServer
          = registered flattenPrefixLoader camelCaseServer
              (resolved flattenPrefixLoader camelCaseServer)
      ∧ (register flattenPrefixLoader camelCaseServer).returned?.map
          (fun r => r.2.2.formal.map flagView)
        = some (camelCaseServer.Fields.map
            (fun field => flagView (topLevelFlag flattenPrefixLoader field)))
      ∧ camelCaseServer.Fields.map (topLevelName flattenPrefixLoader)
        = ["p-accesskey", "p-normal", "p-dbname", "p-availabilityratio"])
    ∧ register flattenPrefixLoader (renameStructs (fun _ => "Renamed") flattenedServer)
        = register flattenPrefixLoader flattenedServer :=
  ⟨rfl, rfl, ((flatten_flag_names flattenCamelLoader flattenedServer rfl).2.1 rfl).1,
    by decide, by decide,
    ⟨rfl, by decide,
      ((flatten_flag_names flattenPrefixLoader camelCaseServer rfl).2.2 (by decide)).1,
      by decide, by decide⟩,
    (flatten_flag_names flattenPrefixLoader flattenedServer rfl).1 (fun _ => "Renamed")⟩

theorem stated_names_differ (f : FlagLoader) (s : Struct) (names : List String)
    (hd : (register f s).returned?.map (fun r => r.2.2.names) = some names)
    (hne : names ≠ (leaves s).map (statedFlattenName f)) (hF : f.Flatten = true) :
    ¬ FlattenNamingStated f s := by
  intro h
  cases hr : register f s with
  | panic msg => rw [hr] at hd; simp [Outcome.returned?] at hd
  | ret r =>
    obtain ⟨f1, err, fs⟩ := r
    have h1 := h hF f1 err fs hr
    rw [hr] at hd
    simp only [Outcome.returned?, Option.map_some', Option.some.injEq] at hd
    exact hne (hd.symm.trans h1)

/-- C2 as stated fails on two inputs.  With `Flatten` and `CamelCase` (the loader of
`TestFlattenAndCamelCaseFlags`) the leaf `DBName` of `FlattenedServer` is registered as
`db-name`, not as `lower(DBName)`; with `Flatten` and the prefix "P" the leaf `Enabled`,
one struct deep, is registered as `p--enabled`, not as `lower(P + sep + Enabled)`. -/
theorem flatten_naming_stated_fails :
    ¬ FlattenNamingStated flattenCamelLoader flattenedServer
    ∧ ¬ FlattenNamingStated flattenPrefixLoader flattenedServer :=
  ⟨stated_names_differ flattenCamelLoader flattenedServer
      ["enabled", "port", "hosts", "db-name", "availability-ratio"]
      (by decide) (by decide) rfl,
    stated_names_differ flattenPrefixLoader flattenedServer
      ["p--enabled", "p--port", "p--hosts", "p--dbname", "p--availabilityratio"]
      (by decide) (by decide) rfl⟩

/-- With `Flatten` and the prefix "P", the leaves of `FlattenedServer`, one struct deep,
are registered with the separator twice. -/
theorem flatten_prefix_nested_names :
    (register flattenPrefixLoader flattenedServer).returned?.map (fun r => r.2.2.names)
      = some ["p--enabled", "p--port", "p--hosts", "p--dbname", "p--availabilityratio"] := by
  decide

/-! ### Defining a flag, case by case -/

theorem visit_duplicateCheck (name : String) (flags : List flag.Flag) :
    FlagSet.visit (duplicateCheck name) flags
      = if name ∈ flags.map flag.Flag.Name then .panic (duplicateMessage name) else .ret () := by
  induction flags with
  | nil => simp [FlagSet.visit]
  | cons fl rest ih =>
    by_cases h : name = fl.Name
    · subst h
      simp [FlagSet.visit, duplicateCheck, duplicateMessage]
    · simp [FlagSet.visit, duplicateCheck, h, ih]

theorem any_name (name : String) (flags : List flag.Flag) :
    flags.any (fun fl => fl.Name == name) = decide (name ∈ flags.map flag.Flag.Name) := by
  induction flags with
  | nil => simp
  | cons fl rest ih =>
    by_cases h : name = fl.Name
    · subst h; simp
    · have h1 : ¬ fl.Name = name := fun e => h e.symm
      simp [h, h1, ih]

/-- The outcome of defining one flag: the panics of the `Flatten` check and of `Var`, in
the order the code reaches them, and the flag set with the flag appended otherwise. -/
theorem defineFlag_eq (f : FlagLoader) (fl : flag.Flag) (fs : FlagSet) :
    defineFlag f fl fs =
      if f.Flatten = true ∧ fl.Name ∈ fs.names then .panic (duplicateMessage fl.Name)
      else if strings.HasPrefix fl.Name "-" = true then
        .panic ("flag " ++ FlagSet.quote fl.Name ++ " begins with -")
      else if strings.Contains fl.Name "=" = true then
        .panic ("flag " ++ FlagSet.quote fl.Name ++ " contains =")
      else if fl.Name ∈ fs.names then .panic (redefinedMessage fs fl.Name)
      else .ret { fs with formal := fs.formal ++ [fl] } := by
  unfold defineFlag FlagSet.VisitAll FlagSet.Var
  rw [visit_duplicateCheck, any_name]
  show _ = if f.Flatten = true ∧ fl.Name ∈ fs.formal.map flag.Flag.Name then _ else _
  unfold redefinedMessage FlagSet.names
  by_cases hF : f.Flatten = true <;>
    by_cases hm : fl.Name ∈ fs.formal.map flag.Flag.Name <;>
    by_cases h1 : strings.HasPrefix fl.Name "-" = true <;>
    by_cases h2 : strings.Contains fl.Name "=" = true <;>
    by_cases h3 : fs.name = "" <;>
    simp only [hF, hm, h1, h2, h3, if_true, if_false, true_and, and_true, false_and,
      and_false, decide_True, decide_False, Bool.false_eq_true]

/-! ### C3 -/

theorem segment_camel (f : FlagLoader) (hC : f.CamelCase = true) (name : String) :
    f.segment name = camelWords name := by
  simp [FlagLoader.segment, hC, camelWords]

theorem segment_withoutCamelCase (f : FlagLoader) (name : String) :
    f.withoutCamelCase.segment name = name := by
  simp [FlagLoader.segment, FlagLoader.withoutCamelCase]

theorem leafFlag_camel (f : FlagLoader) (hC : f.CamelCase = true) (pfx name : String)
    (exported : Bool) (kind : reflect.Kind) (tags : List (String × String)) (v : Bool)
    (fields : List Field) :
    flagView (leafFlag f pfx (.mk name exported kind tags v fields))
      = flagView (leafFlag f.withoutCamelCase pfx
          (.mk (camelWords name) exported kind tags v (camelFields fields))) := by
  simp only [flagView, leafFlag, Field.Name, segment_camel f hC, segment_withoutCamelCase]
  rfl

mutual

theorem flagsOf_camel (f : FlagLoader) (hC : f.CamelCase = true) (pfx : String)
    (field : Field) :
    (flagsOf f pfx field).map flagView
      = (flagsOf f.withoutCamelCase pfx (camelField field)).map flagView := by
  match field with
  | .mk name exported kind tags v fields =>
    cases exported with
    | false => simp [flagsOf, camelField]
    | true =>
      by_cases hk : kind = reflect.Kind.Struct
      · subst hk
        rw [camelField, flagsOf_struct, flagsOf_struct]
        have hp : f.withoutCamelCase.childPrefix (f.withoutCamelCase.extend pfx)
            (camelWords name) = f.childPrefix (f.extend pfx) name := by
          simp only [FlagLoader.childPrefix, segment_camel f hC, segment_withoutCamelCase]
          rfl
        rw [hp]
        exact flagsOfList_camel f hC _ fields
      · rw [camelField, flagsOf_leaf f _ name kind tags v fields hk,
          flagsOf_leaf f.withoutCamelCase _ _ kind tags v _ hk]
        simp only [List.map_cons, List.map_nil]
        rw [leafFlag_camel f hC]
        rfl

theorem flagsOfList_camel (f : FlagLoader) (hC : f.CamelCase = true) (pfx : String)
    (fields : List Field) :
    (flagsOfList f pfx fields).map flagView
      = (flagsOfList f.withoutCamelCase pfx (camelFields fields)).map flagView := by
  match fields with
  | [] => simp [flagsOfList, camelFields]
  | ff :: rest =>
    simp only [flagsOfList, camelFields, List.map_append]
    rw [flagsOf_camel f hC pfx ff, flagsOfList_camel f hC pfx rest]

end

theorem names_of_view (flags flags1 : List flag.Flag)
    (h : flags.map flagView = flags1.map flagView) :
    flags.map flag.Flag.Name = flags1.map flag.Flag.Name := by
  have h1 := congrArg (List.map Prod.fst) h
  simpa [List.map_map, Function.comp_def, flagView] using h1

/-- Defining a flag depends on the flag and the flag set only through names and usages. -/
theorem defineFlag_view (f g : FlagLoader) (hFG : f.Flatten = g.Flatten)
    (fl fl1 : flag.Flag) (fs fs1 : FlagSet) (hv : flagView fl = flagView fl1)
    (hs : setView fs = setView fs1) :
    (defineFlag f fl fs).map setView = (defineFlag g fl1 fs1).map setView := by
  simp only [setView, Prod.mk.injEq] at hs
  obtain ⟨hn, hf⟩ := hs
  have hname : fl.Name = fl1.Name := congrArg Prod.fst hv
  have hnames : fs.names = fs1.names := names_of_view _ _ hf
  have hred : redefinedMessage fs fl1.Name = redefinedMessage fs1 fl1.Name := by
    simp [redefinedMessage, hn]
  rw [defineFlag_eq, defineFlag_eq, hFG, hname, hnames, hred]
  split
  · rfl
  · split
    · rfl
    · split
      · rfl
      · split
        · rfl
        · simp [Outcome.map, setView, hn, hf, hv]

theorem defineFlags_view (f g : FlagLoader) (hFG : f.Flatten = g.Flatten)
    (flags flags1 : List flag.Flag) (fs fs1 : FlagSet)
    (hv : flags.map flagView = flags1.map flagView) (hs : setView fs = setView fs1) :
    (defineFlags f flags fs).map setView = (defineFlags g flags1 fs1).map setView := by
  induction flags generalizing flags1 fs fs1 with
  | nil =>
    cases flags1 with
    | nil => simp [defineFlags, Outcome.map, hs]
    | cons fl1 rest1 => simp at hv
  | cons fl rest ih =>
    cases flags1 with
    | nil => simp at hv
    | cons fl1 rest1 =>
      simp only [List.map_cons, List.cons.injEq] at hv
      have hstep := defineFlag_view f g hFG fl fl1 fs fs1 hv.1 hs
      simp only [defineFlags]
      cases h1 : defineFlag f fl fs with
      | panic msg =>
        cases h2 : defineFlag g fl1 fs1 with
        | panic msg1 =>
          rw [h1, h2] at hstep
          simpa [Outcome.map] using hstep
        | ret b => rw [h1, h2] at hstep; simp [Outcome.map] at hstep
      | ret a =>
        cases h2 : defineFlag g fl1 fs1 with
        | panic msg1 => rw [h1, h2] at hstep; simp [Outcome.map] at hstep
        | ret b =>
          rw [h1, h2] at hstep
          simp only [Outcome.map, Outcome.ret.injEq] at hstep
          exact ih rest1 a b hv.2 hstep

theorem defaulted_withoutCamelCase (f : FlagLoader) :
    f.withoutCamelCase.defaulted = f.defaulted.withoutCamelCase := by
  unfold FlagLoader.defaulted FlagLoader.withoutCamelCase
  by_cases h : f.StructSeparator = "" <;> simp [h]

theorem registered_view (f g : FlagLoader) (hFG : f.Flatten = g.Flatten)
    (s s1 : Struct) (hS : s.Name = s1.Name)
    (flags flags1 : List flag.Flag) (hv : flags.map flagView = flags1.map flagView) :
    registeredView (registered f s flags) = registeredView (registered g s1 flags1) := by
  have h := defineFlags_view f g hFG flags flags1 (flag.NewFlagSet s.Name f.ErrorHandling)
    (flag.NewFlagSet s1.Name g.ErrorHandling) hv (by simp [setView, flag.NewFlagSet, hS])
  unfold registered registeredView
  cases h1 : defineFlags f flags (flag.NewFlagSet s.Name f.ErrorHandling) with
  | panic msg =>
    cases h2 : defineFlags g flags1 (flag.NewFlagSet s1.Name g.ErrorHandling) with
    | panic msg1 => rw [h1, h2] at h; simpa [Outcome.map] using h
    | ret b => rw [h1, h2] at h; simp [Outcome.map] at h
  | ret a =>
    cases h2 : defineFlags g flags1 (flag.NewFlagSet s1.Name g.ErrorHandling) with
    | panic msg1 => rw [h1, h2] at h; simp [Outcome.map] at h
    | ret b =>
      rw [h1, h2] at h
      simp only [Outcome.map, Outcome.ret.injEq, setView, Prod.mk.injEq] at h
      simp [Outcome.map, h.2]

/-- C3. CamelCase flag naming: with `CamelCase` set, every path segment (the name of an
ancestor struct field or of the leaf) enters the flag name as its camel-case words joined
with "-", whatever `StructSeparator` is.  Without `Flatten`, and with non-empty segments
for the structs a leaf lies in, the registration phase of `Load` defines, in order, one
flag per exported leaf named `lower(join(P ++ [words a1, ..., words an, words f], sep))`;
and for every loader with `CamelCase` the phase gives the names, usages and panics that
the loader without `CamelCase` gives on the record whose field names are replaced by their
camel-case words joined with "-". -/
theorem camelcase_flag_names (f : FlagLoader) (s : Struct) (hC : f.CamelCase = true) :
    (f.Flatten = false → (∀ l ∈ leaves s, ∀ a ∈ l.ancestors, camelWords a ≠ "") →
      register f s = registered f s ((leaves s).map (flagNamed f (camelName f)))
      ∧ ∀ f1 err fs, register f s = .ret (f1, err, fs) →
          err = none ∧ fs.formal = (leaves s).map (flagNamed f (camelName f)))
    ∧ registeredView (register f s)
        = registeredView (register f.withoutCamelCase (camelRecord s)) := by
  constructor
  · intro hF hn
    have hseg : f.segment = camelWords := funext (segment_camel f hC)
    have hname : segmentName f = camelName f := by
      funext l
      simp [segmentName, camelName, hseg]
    have h := register_nonflatten f s hF (by rw [hseg]; exact hn)
    rw [hname] at h
    refine ⟨h, ?_⟩
    intro f1 err fs hr
    rw [h] at hr
    obtain ⟨h1, h2, _⟩ := registered_ret f s _ f1 err fs hr
    exact ⟨h1, h2⟩
  · rw [register_eq, register_eq, defaulted_withoutCamelCase]
    apply registered_view f f.withoutCamelCase rfl s (camelRecord s) rfl
    exact flagsOfList_camel f.defaulted (by rw [defaulted_CamelCase, hC]) f.Prefix s.Fields

theorem camelcase_flag_names_witness :
    camelSeparatorLoader.CamelCase = true
    ∧ (register camelSeparatorLoader nestedServer
        = registered camelSeparatorLoader nestedServer
            ((leaves nestedServer).map
              (flagNamed camelSeparatorLoader (camelName camelSeparatorLoader))))
    ∧ (register camelSeparatorLoader nestedServer).returned?.map (fun r => r.2.2.names)
        = some ["name", "database-options.postgres.enabled", "database-options.postgres.port",
            "database-options.postgres.hosts", "database-options.postgres.db-name",
            "database-options.postgres.availability-ratio"]
    ∧ (register camelLoader camelCaseServer).returned?.map (fun r => r.2.2.names)
        = some ["access-key", "normal", "db-name", "availability-ratio"] :=
  ⟨rfl, ((camelcase_flag_names camelSeparatorLoader nestedServer rfl).1 rfl (by decide)).1,
    by decide, by decide⟩

/-! ### C4 -/

/-- C4, at the failing input. Without `Flatten`, the two leaves `Foo` and `FOO` of
`struct{Foo int; FOO int}` are distinct paths that resolve to the one flag name `foo`,
and the registration phase of `Load` panics in `Var` on the second. -/
theorem nonflatten_names_collide :
    plainLoader.Flatten = false
    ∧ (leaves caseRecord).map Leaf.path = [["Foo"], ["FOO"]]
    ∧ resolvedNames plainLoader caseRecord = ["foo", "foo"]
    ∧ (register plainLoader caseRecord).panicked? = some "C flag redefined: foo"
    ∧ (Load quietEnv plainLoader caseRecord).panicked? = some "C flag redefined: foo" := by
  refine ⟨rfl, ?_, ?_, ?_, ?_⟩ <;> decide

/-! ### C5 -/

theorem Load_panic (env : Env) (f : FlagLoader) (s : Struct) (msg : String)
    (h : register f s = .panic msg) : Load env f s = .panic msg := by
  simp [Load, h]

theorem defineFlag_duplicate (f : FlagLoader) (hF : f.Flatten = true) (fl : flag.Flag)
    (fs : FlagSet) (h : fl.Name ∈ fs.names) :
    defineFlag f fl fs = .panic (duplicateMessage fl.Name) := by
  rw [defineFlag_eq]
  simp [hF, h]

theorem defineFlag_not_mem (f : FlagLoader) (fl : flag.Flag) (fs fs1 : FlagSet)
    (h : defineFlag f fl fs = .ret fs1) : fl.Name ∉ fs.names := by
  rw [defineFlag_eq] at h
  intro hm
  by_cases hF : f.Flatten = true <;>
    by_cases h1 : strings.HasPrefix fl.Name "-" = true <;>
    by_cases h2 : strings.Contains fl.Name "=" = true <;>
    simp [hF, hm, h1, h2] at h

theorem defineFlags_nodup (f : FlagLoader) (flags : List flag.Flag) (fs fs1 : FlagSet)
    (hn : fs.names.Nodup) (h : defineFlags f flags fs = .ret fs1) : fs1.names.Nodup := by
  induction flags generalizing fs with
  | nil =>
    simp only [defineFlags, Outcome.ret.injEq] at h
    subst h
    exact hn
  | cons fl rest ih =>
    simp only [defineFlags] at h
    cases hd : defineFlag f fl fs with
    | panic msg => rw [hd] at h; cases h
    | ret fs2 =>
      rw [hd] at h
      apply ih fs2 _ h
      have h1 := (defineFlag_formal f fl fs fs2 hd).1
      have h2 := defineFlag_not_mem f fl fs fs2 hd
      simp only [FlagSet.names] at h2 hn ⊢
      rw [h1, List.map_append, List.map_cons, List.map_nil]
      exact List.Nodup.append hn (List.nodup_singleton _) (by simpa using h2)

/-- C5. Flatten collision detection: with `Flatten` set, a leaf whose resolved name is
already in the flag set makes `processField` panic at that leaf with the message
"flag 'NAME' is already defined in an outer struct"; whenever the leaves before a leaf
were registered and one of them has the leaf's name, `Load` stops with that panic; and a
flag set `Load` leaves behind never holds two flags of one name. -/
theorem flatten_duplicate_detected (f : FlagLoader) (s : Struct) (hF : f.Flatten = true) :
    (∀ (pfx : String) (field : Field) (fs : FlagSet),
      field.IsExported = true → field.Kind ≠ reflect.Kind.Struct →
      (leafFlag f (f.extend pfx) field).Name ∈ fs.names →
      processField f pfx field fs
        = .panic (duplicateMessage (leafFlag f (f.extend pfx) field).Name))
    ∧ register f s = registered f s (resolved f s)
    ∧ (∀ (env : Env) (pre post : List flag.Flag) (fl : flag.Flag) (fs1 : FlagSet),
      resolved f s = pre ++ fl :: post →
      defineFlags f pre (flag.NewFlagSet s.Name f.ErrorHandling) = .ret fs1 →
      fl.Name ∈ pre.map flag.Flag.Name →
      Load env f s = .panic (duplicateMessage fl.Name))
    ∧ (∀ (env : Env) (f1 : FlagLoader) (err : error), Load env f s = .ret (f1, err) →
      ∃ fs, f1.flagSet = some fs ∧ fs.names.Nodup) := by
  refine ⟨?_, register_eq f s, ?_, ?_⟩
  · intro pfx field fs he hk hm
    cases field with
    | mk name exported kind tags v fields =>
      simp only [Field.IsExported] at he
      simp only [Field.Kind] at hk
      subst he
      rw [processField_leaf _ _ _ _ _ _ _ _ hk, processLeaf_eq,
        defineFlag_duplicate f hF _ fs hm]
      rfl
  · intro env pre post fl fs1 hres hpre hm
    apply Load_panic
    rw [register_eq]
    change registered f s (resolved f s) = _
    rw [hres]
    unfold registered
    rw [defineFlags_append, hpre]
    have hnames : fs1.names = pre.map flag.Flag.Name := by
      have := (defineFlags_formal f pre _ fs1 hpre).1
      simp [FlagSet.names, this, flag.NewFlagSet]
    simp only [defineFlags]
    rw [defineFlag_duplicate f hF fl fs1 (by rw [hnames]; exact hm)]
  · intro env f1 err hL
    unfold Load at hL
    rw [register_eq] at hL
    unfold registered at hL
    cases hd : defineFlags f (flagsOfList f.defaulted f.Prefix s.Fields)
        (flag.NewFlagSet s.Name f.ErrorHandling) with
    | panic msg => rw [hd] at hL; cases hL
    | ret fs =>
      rw [hd] at hL
      have hnd : fs.names.Nodup :=
        defineFlags_nodup f _ _ fs (by simp [FlagSet.names, flag.NewFlagSet]) hd
      refine ⟨fs, ?_, hnd⟩
      simp only at hL
      split at hL
      · cases hL
      · simp only [Outcome.ret.injEq, Prod.mk.injEq] at hL
        rw [← hL.1]

theorem flatten_duplicate_detected_witness :
    flattenLoader.Flatten = true
    ∧ resolvedNames flattenLoader duplicateRecord = ["foo", "foo"]
    ∧ Load quietEnv flattenLoader duplicateRecord
        = .panic "flag 'foo' is already defined in an outer struct" :=
  ⟨rfl, by decide,
    (flatten_duplicate_detected flattenLoader duplicateRecord rfl).2.2.1 quietEnv
      [leafFlag flattenLoader "" (leafField "Foo" .Int)] []
      (leafFlag flattenLoader "" (leafField "Foo" .Int))
      ⟨"C", .ContinueOnError, [leafFlag flattenLoader "" (leafField "Foo" .Int)]⟩
      rfl rfl (by decide)⟩

/-! ### C6 -/

theorem defineFlags_panics (f : FlagLoader) (flags : List flag.Flag) (fs : FlagSet)
    (hn : fs.names.Nodup) (hd : ¬ (fs.names ++ flags.map flag.Flag.Name).Nodup) :
    ∃ msg, defineFlags f flags fs = .panic msg := by
  induction flags generalizing fs with
  | nil => simp [hn] at hd
  | cons fl rest ih =>
    simp only [defineFlags]
    cases h : defineFlag f fl fs with
    | panic msg => exact ⟨msg, rfl⟩
    | ret fs2 =>
      have h1 := (defineFlag_formal f fl fs fs2 h).1
      have h2 := defineFlag_not_mem f fl fs fs2 h
      have hnames : fs2.names = fs.names ++ [fl.Name] := by
        simp [FlagSet.names, h1]
      apply ih fs2
      · rw [hnames]
        exact List.Nodup.append hn (List.nodup_singleton _) (by simpa using h2)
      · rw [hnames]
        simpa using hd

/-- C6, amended. A duplicate flag name reaches the caller as a panic, not as a returned
error: for every loader and record in which two leaves resolve to the same flag name,
`Load` panics and does not return. -/
theorem duplicate_flag_panics (env : Env) (f : FlagLoader) (s : Struct)
    (h : ¬ (resolvedNames f s).Nodup) :
    (∃ msg, Load env f s = .panic msg) ∧ ∀ f1 err, Load env f s ≠ .ret (f1, err) := by
  have hp : ∃ msg, Load env f s = .panic msg := by
    obtain ⟨msg, hmsg⟩ := defineFlags_panics f (resolved f s)
      (flag.NewFlagSet s.Name f.ErrorHandling) (by simp [FlagSet.names, flag.NewFlagSet])
      (by simpa [FlagSet.names, flag.NewFlagSet, resolvedNames] using h)
    refine ⟨msg, Load_panic env f s msg ?_⟩
    rw [register_eq]
    change registered f s (resolved f s) = _
    unfold registered
    rw [hmsg]
  refine ⟨hp, ?_⟩
  intro f1 err hr
  obtain ⟨msg, hmsg⟩ := hp
  rw [hmsg] at hr
  cases hr

theorem duplicate_flag_panics_witness :
    ¬ (resolvedNames plainLoader caseRecord).Nodup
    ∧ ((∃ msg, Load quietEnv plainLoader caseRecord = .panic msg)
      ∧ ∀ f1 err, Load quietEnv plainLoader caseRecord ≠ .ret (f1, err)) :=
  ⟨by decide, duplicate_flag_panics quietEnv plainLoader caseRecord (by decide)⟩

/-- C6 as stated fails: for `C{A{Foo int}; B{Foo int}}` and a loader with `Flatten` the
two leaves resolve to `foo`, and `Load` panics instead of returning an error. -/
theorem duplicate_returned_stated_fails :
    ¬ DuplicateReturnedStated quietEnv flattenLoader duplicateRecord := by
  intro h
  obtain ⟨f1, msg, hL⟩ := h (by decide)
  have hp : (Load quietEnv flattenLoader duplicateRecord).panicked?
      = some "flag 'foo' is already defined in an outer struct" := by decide
  rw [hL] at hp
  simp [Outcome.panicked?] at hp

/-! ### C7 and C8 -/

mutual

theorem flagsOf_shape (f : FlagLoader) (pfx : String) (field : Field) :
    ∀ fl ∈ flagsOf f pfx field,
      fl.Usage = f.flagUsage (f.segment fl.Value.field.Name) fl.Value.field
      ∧ fl.Value.field.IsExported = true ∧ fl.Value.field.Kind ≠ reflect.Kind.Struct := by
  match field with
  | .mk name exported kind tags v fields =>
    cases exported with
    | false => simp [flagsOf]
    | true =>
      by_cases hk : kind = reflect.Kind.Struct
      · subst hk
        rw [flagsOf_struct]
        exact flagsOfList_shape f _ fields
      · rw [flagsOf_leaf f _ name kind tags v fields hk]
        intro fl hfl
        simp only [List.mem_singleton] at hfl
        subst hfl
        exact ⟨rfl, rfl, hk⟩

theorem flagsOfList_shape (f : FlagLoader) (pfx : String) (fields : List Field) :
    ∀ fl ∈ flagsOfList f pfx fields,
      fl.Usage = f.flagUsage (f.segment fl.Value.field.Name) fl.Value.field
      ∧ fl.Value.field.IsExported = true ∧ fl.Value.field.Kind ≠ reflect.Kind.Struct := by
  match fields with
  | [] => simp [flagsOfList]
  | ff :: rest =>
    intro fl hfl
    simp only [flagsOfList, List.mem_append] at hfl
    rcases hfl with h | h
    · exact flagsOf_shape f pfx ff fl h
    · exact flagsOfList_shape f pfx rest fl h

end

/-- Every flag the registration phase leaves in the flag set was defined by the `default`
case of `processField` for an exported field that is not of kind struct, with the usage
`flagUsage` computes from the segment of the field. -/
theorem registered_shape (f : FlagLoader) (s : Struct) (f1 : FlagLoader) (err : error)
    (fs : FlagSet) (h : register f s = .ret (f1, err, fs)) :
    ∀ fl ∈ fs.formal,
      fl.Usage = f.flagUsage (f.segment fl.Value.field.Name) fl.Value.field
      ∧ fl.Value.field.IsExported = true ∧ fl.Value.field.Kind ≠ reflect.Kind.Struct := by
  rw [register_eq] at h
  obtain ⟨_, h2, _⟩ := registered_ret f s _ f1 err fs h
  rw [h2]
  intro fl hfl
  have := flagsOfList_shape f.defaulted f.Prefix s.Fields fl hfl
  rwa [defaulted_segment, defaulted_flagUsage] at this

theorem register_resolved (f : FlagLoader) (s : Struct) :
    register f s = registered f s (resolved f s)
    ∧ ∀ f1 err fs, register f s = .ret (f1, err, fs) → fs.formal = resolved f s := by
  refine ⟨register_eq f s, ?_⟩
  intro f1 err fs h
  rw [register_eq] at h
  exact (registered_ret f s _ f1 err fs h).2.1

theorem resolved_shape (f : FlagLoader) (s : Struct) :
    ∀ fl ∈ resolved f s,
      fl.Usage = f.flagUsage (f.segment fl.Value.field.Name) fl.Value.field
      ∧ fl.Value.field.IsExported = true ∧ fl.Value.field.Kind ≠ reflect.Kind.Struct := by
  intro fl hfl
  have := flagsOfList_shape f.defaulted f.Prefix s.Fields fl hfl
  rwa [defaulted_segment, defaulted_flagUsage] at this

/-- C7. Usage-string priority: the registration phase of `Load` defines, in order, the
flags resolved for the leaves, and when it returns the flag set holds exactly them; each
of these flags has as usage the result of `FlagUsageFunc` when that is set, whatever the
`flagUsage` tag of the field; otherwise the `flagUsage` tag when it is non-empty;
otherwise the generated default text. -/
theorem usage_priority (f : FlagLoader) (s : Struct) :
    (register f s = registered f s (resolved f s)
      ∧ ∀ f1 err fs, register f s = .ret (f1, err, fs) → fs.formal = resolved f s)
    ∧ ∀ fl ∈ resolved f s,
      (∀ usageFunc, f.FlagUsageFunc = some usageFunc →
        fl.Usage = usageFunc (f.segment fl.Value.field.Name))
      ∧ (f.FlagUsageFunc = none → fl.Value.field.Tag "flagUsage" ≠ "" →
        fl.Usage = fl.Value.field.Tag "flagUsage")
      ∧ (f.FlagUsageFunc = none → fl.Value.field.Tag "flagUsage" = "" →
        fl.Usage = "Change value of " ++ f.segment fl.Value.field.Name ++ ".") := by
  refine ⟨register_resolved f s, ?_⟩
  intro fl hfl
  obtain ⟨hu, _, _⟩ := resolved_shape f s fl hfl
  refine ⟨?_, ?_, ?_⟩
  · intro usageFunc hf
    rw [hu]
    simp [FlagLoader.flagUsage, hf]
  · intro hf ht
    rw [hu]
    simp [FlagLoader.flagUsage, hf, ht]
  · intro hf ht
    rw [hu]
    simp [FlagLoader.flagUsage, hf, ht]

theorem usage_priority_witness :
    (∀ fl ∈ resolved usageFuncLoader taggedRecord,
      (∀ usageFunc, usageFuncLoader.FlagUsageFunc = some usageFunc →
        fl.Usage = usageFunc (usageFuncLoader.segment fl.Value.field.Name))
      ∧ (usageFuncLoader.FlagUsageFunc = none → fl.Value.field.Tag "flagUsage" ≠ "" →
        fl.Usage = fl.Value.field.Tag "flagUsage")
      ∧ (usageFuncLoader.FlagUsageFunc = none → fl.Value.field.Tag "flagUsage" = "" →
        fl.Usage = "Change value of " ++ usageFuncLoader.segment fl.Value.field.Name ++ "."))
    ∧ (register usageFuncLoader taggedRecord).returned?.map
        (fun r => r.2.2.formal.map flagView) = some [("foobar", "foobar help")]
    ∧ (register plainLoader taggedRecord).returned?.map
        (fun r => r.2.2.formal.map flagView) = some [("foobar", "tag help")]
    ∧ (register plainLoader ⟨"", [leafField "Foobar" .String]⟩).returned?.map
        (fun r => r.2.2.formal.map flagView) = some [("foobar", "Change value of Foobar.")] :=
  ⟨(usage_priority usageFuncLoader taggedRecord).2, by decide, by decide, by decide⟩

/-- C8, amended. Generated default usage: for a loader without `FlagUsageFunc`, every
flag the registration phase of `Load` defines for a field without `flagUsage` tag has the
usage "Change value of N.", where `N` is the declared name of the field when `CamelCase`
is unset and its camel-case words joined with "-" when `CamelCase` is set, whatever
`Prefix`, `Flatten` and `StructSeparator` are. -/
theorem default_usage (f : FlagLoader) (s : Struct) :
    (register f s = registered f s (resolved f s)
      ∧ ∀ f1 err fs, register f s = .ret (f1, err, fs) → fs.formal = resolved f s)
    ∧ ∀ fl ∈ resolved f s, f.FlagUsageFunc = none → fl.Value.field.Tag "flagUsage" = "" →
      fl.Usage = "Change value of "
        ++ (if f.CamelCase then camelWords fl.Value.field.Name else fl.Value.field.Name)
        ++ "." := by
  refine ⟨register_resolved f s, ?_⟩
  intro fl hfl hf ht
  obtain ⟨hu, _, _⟩ := resolved_shape f s fl hfl
  rw [hu]
  simp [FlagLoader.flagUsage, hf, ht, FlagLoader.segment, camelWords]

theorem default_usage_witness :
    (∀ fl ∈ resolved camelLoader camelCaseServer, camelLoader.FlagUsageFunc = none →
      fl.Value.field.Tag "flagUsage" = "" →
      fl.Usage = "Change value of "
        ++ (if camelLoader.CamelCase then camelWords fl.Value.field.Name
            else fl.Value.field.Name)
        ++ ".")
    ∧ (register camelLoader camelCaseServer).returned?.map
        (fun r => r.2.2.formal.map flagView)
      = some [("access-key", "Change value of Access-Key."),
          ("normal", "Change value of Normal."), ("db-name", "Change value of DB-Name."),
          ("availability-ratio", "Change value of Availability-Ratio.")]
    ∧ (register plainLoader camelCaseServer).returned?.map
        (fun r => r.2.2.formal.map flagView)
      = some [("accesskey", "Change value of AccessKey."),
          ("normal", "Change value of Normal."), ("dbname", "Change value of DBName."),
          ("availabilityratio", "Change value of AvailabilityRatio.")] :=
  ⟨(default_usage camelLoader camelCaseServer).2, by decide, by decide⟩

/-- C8 as stated fails: with `CamelCase` the flag of the field `AccessKey` of
`CamelCaseServer` has the usage "Change value of Access-Key.". -/
theorem default_usage_stated_fails : ¬ DefaultUsageStated camelLoader camelCaseServer := by
  intro h
  have h1 := h { camelLoader.defaulted with flagSet := some camelFlagSet } none camelFlagSet rfl
    (leafFlag camelLoader "" (leafField "AccessKey" .String)) (by
      simp [camelFlagSet, resolved, flagsOfList, flagsOf, leafField, FlagLoader.extend,
        FlagLoader.defaulted, camelLoader, plainLoader, camelCaseServer, leafFlag,
        FlagLoader.segment, FlagLoader.flagUsage]) rfl rfl
  revert h1
  decide

/-! ### C9 -/

theorem processField_unexported (f : FlagLoader) (pfx : String) (field : Field)
    (fs : FlagSet) (he : field.IsExported = false) :
    processField f pfx field fs = .ret (none, fs) := by
  cases field with
  | mk name exported kind tags v fields =>
    simp only [Field.IsExported] at he
    subst he
    simp [processField]

theorem flagsOf_of_unexported (f : FlagLoader) (pfx : String) (field : Field)
    (he : ¬ field.IsExported = true) : flagsOf f pfx field = [] := by
  cases field with
  | mk name exported kind tags v fields =>
    simp only [Field.IsExported, Bool.not_eq_true] at he
    subst he
    exact flagsOf_unexported f pfx name kind tags v fields

mutual

theorem flagsOf_exportedField (f : FlagLoader) (pfx : String) (field : Field) :
    flagsOf f pfx (exportedField field) = flagsOf f pfx field := by
  match field with
  | .mk name exported kind tags v fields =>
    by_cases hk : kind = reflect.Kind.Struct
    · subst hk
      cases exported with
      | false => simp [exportedField, flagsOf]
      | true =>
        rw [exportedField, flagsOf_struct, flagsOf_struct]
        exact flagsOfList_exportedFields f _ fields
    · have : exportedField (.mk name exported kind tags v fields)
          = .mk name exported kind tags v fields := by
        cases kind <;> first | exact absurd rfl hk | simp [exportedField]
      rw [this]

theorem flagsOfList_exportedFields (f : FlagLoader) (pfx : String) (fields : List Field) :
    flagsOfList f pfx (exportedFields fields) = flagsOfList f pfx fields := by
  match fields with
  | [] => simp [exportedFields]
  | ff :: rest =>
    by_cases he : ff.IsExported = true
    · simp only [exportedFields, he, if_true, flagsOfList]
      rw [flagsOf_exportedField f pfx ff, flagsOfList_exportedFields f pfx rest]
    · simp only [exportedFields, he, flagsOfList, flagsOf_of_unexported f pfx ff he,
        List.nil_append]
      exact flagsOfList_exportedFields f pfx rest

end

mutual

theorem flagsOf_fields (f : FlagLoader) (pfx : String) (field : Field) :
    (flagsOf f pfx field).map (fun fl => fl.Value.field) = (leavesOf field).map Leaf.field := by
  match field with
  | .mk name exported kind tags v fields =>
    cases exported with
    | false => simp [flagsOf, leavesOf]
    | true =>
      by_cases hk : kind = reflect.Kind.Struct
      · subst hk
        rw [flagsOf_struct, leavesOf_struct, List.map_map, flagsOfList_fields f _ fields]
        rfl
      · rw [flagsOf_leaf f _ name kind tags v fields hk, leavesOf_leaf _ _ _ _ _ hk]
        rfl

theorem flagsOfList_fields (f : FlagLoader) (pfx : String) (fields : List Field) :
    (flagsOfList f pfx fields).map (fun fl => fl.Value.field)
      = (leavesOfList fields).map Leaf.field := by
  match fields with
  | [] => simp [flagsOfList, leavesOfList]
  | ff :: rest =>
    simp only [flagsOfList, leavesOfList, List.map_append]
    rw [flagsOf_fields f pfx ff, flagsOfList_fields f pfx rest]

end

theorem register_exportedOnly (f : FlagLoader) (s : Struct) :
    register f (exportedOnly s) = register f s := by
  rw [register_eq, register_eq]
  simp only [exportedOnly, flagsOfList_exportedFields]
  rfl

/-- C9. Unexported fields are never resolved or visited: `processField` leaves the flag
set as it is for an unexported field, whatever its kind and whatever lies beneath it;
`Load` and its registration phase give the same result on a record and on the record with
its unexported fields, and all beneath them, removed; and the flags the registration
phase leaves in the flag set belong, in order, to the exported leaf fields reached through
exported struct fields, every one of them exported. -/
theorem unexported_never_visited (env : Env) (f : FlagLoader) (s : Struct) :
    (∀ (pfx : String) (field : Field) (fs : FlagSet), field.IsExported = false →
      processField f pfx field fs = .ret (none, fs))
    ∧ register f (exportedOnly s) = register f s
    ∧ Load env f (exportedOnly s) = Load env f s
    ∧ (∀ f1 err fs, register f s = .ret (f1, err, fs) →
      fs.formal.map (fun fl => fl.Value.field) = (leaves s).map Leaf.field
      ∧ ∀ fl ∈ fs.formal, fl.Value.field.IsExported = true) := by
  refine ⟨fun pfx field fs he => processField_unexported f pfx field fs he,
    register_exportedOnly f s, ?_, ?_⟩
  · simp only [Load, register_exportedOnly]
  · intro f1 err fs h
    refine ⟨?_, fun fl hfl => (registered_shape f s f1 err fs h fl hfl).2.1⟩
    rw [register_eq] at h
    obtain ⟨_, h2, _⟩ := registered_ret f s _ f1 err fs h
    rw [h2]
    exact flagsOfList_fields f.defaulted f.Prefix s.Fields

/-- The unexported fields of `NestedServer` and of `Postgres` get no flag. -/
theorem unexported_example :
    (register plainLoader nestedServer).returned?.map (fun r => r.2.2.names)
      = some ["name", "databaseoptions-postgres-enabled", "databaseoptions-postgres-port",
          "databaseoptions-postgres-hosts", "databaseoptions-postgres-dbname",
          "databaseoptions-postgres-availabilityratio"]
    ∧ (register plainLoader
        ⟨"S", [.mk "hidden" false .Struct [] false [leafField "Port" .Int],
               leafField "Name" .String]⟩).returned?.map (fun r => r.2.2.names)
      = some ["name"] := by
  constructor <;> decide

/-! ### C10 -/

/-- C10, amended. A field whose type has the `Set` method is a leaf exactly when its kind
is not struct: an exported field of any other kind (a pointer to a struct, as the fields
of `Endpoint`) gets exactly one flag, named after the field, and its fields are not
walked; an exported field of kind struct is recursed into, with or without the method. -/
theorem settable_leaf (f : FlagLoader) (pfx : String) (field : Field) (fs : FlagSet)
    (he : field.IsExported = true) (hv : field.isFlagValue = true) :
    (field.Kind ≠ reflect.Kind.Struct →
      processField f pfx field fs
        = noError (defineFlag f (leafFlag f (f.extend pfx) field) fs))
    ∧ (field.Kind = reflect.Kind.Struct →
      processField f pfx field fs
        = processStruct f (f.extend pfx) field.Name field.Fields fs) := by
  cases field with
  | mk name exported kind tags v fields =>
    simp only [Field.IsExported] at he
    simp only [Field.isFlagValue] at hv
    subst he hv
    constructor
    · intro hk
      simp only [Field.Kind] at hk
      rw [processField_leaf _ _ _ _ _ _ _ _ hk, processLeaf_eq]
    · intro hk
      simp only [Field.Kind] at hk
      subst hk
      simp [processField, FlagLoader.extend, Field.Name, Field.Fields]

theorem settable_leaf_witness :
    (pointerURL "Private").IsExported = true ∧ (pointerURL "Private").isFlagValue = true
    ∧ ((pointerURL "Private").Kind ≠ reflect.Kind.Struct →
      processField plainLoader.defaulted "" (pointerURL "Private")
          (flag.NewFlagSet "Endpoint" .ContinueOnError)
        = noError (defineFlag plainLoader.defaulted
            (leafFlag plainLoader.defaulted (plainLoader.defaulted.extend "")
              (pointerURL "Private"))
            (flag.NewFlagSet "Endpoint" .ContinueOnError)))
    ∧ (register plainLoader endpoint).returned?.map (fun r => r.2.2.names)
        = some ["private", "public"] :=
  ⟨rfl, rfl,
    (settable_leaf plainLoader.defaulted "" (pointerURL "Private")
      (flag.NewFlagSet "Endpoint" .ContinueOnError) rfl rfl).1,
    by decide⟩

/-- C10 as stated fails: a field `Private URL` of kind struct, whose type has the `Set`
method, is recursed into, and the flag registered is `private-url`, not `private`. -/
theorem settable_leaf_stated_fails :
    ¬ SettableLeafStated plainLoader.defaulted "" (valueURL "Private")
        (flag.NewFlagSet "Endpoint" .ContinueOnError) := by
  intro h
  have h1 := congrArg (fun o => o.returned?.map (fun r => r.2.names)) (h rfl rfl)
  revert h1
  decide

/-- The registration phase for `Endpoint` with fields of type `URL` by value. -/
theorem settable_struct_example :
    (register plainLoader valueEndpoint).returned?.map (fun r => r.2.2.names)
      = some ["private-url", "public-url"] := by
  decide

/-! ### C11 -/

mutual

theorem flagsOf_config (g f : FlagLoader) (hS : g.StructSeparator = f.StructSeparator)
    (hF : g.Flatten = f.Flatten) (hC : g.CamelCase = f.CamelCase)
    (hU : g.FlagUsageFunc = f.FlagUsageFunc) (pfx : String) (field : Field) :
    flagsOf g pfx field = flagsOf f pfx field := by
  match field with
  | .mk name exported kind tags v fields =>
    cases exported with
    | false => simp [flagsOf]
    | true =>
      by_cases hk : kind = reflect.Kind.Struct
      · subst hk
        rw [flagsOf_struct, flagsOf_struct]
        have hp : g.childPrefix (g.extend pfx) name = f.childPrefix (f.extend pfx) name := by
          simp [FlagLoader.childPrefix, FlagLoader.extend, FlagLoader.segment, hS, hF, hC]
        rw [hp]
        exact flagsOfList_config g f hS hF hC hU _ fields
      · rw [flagsOf_leaf g _ name kind tags v fields hk,
          flagsOf_leaf f _ name kind tags v fields hk]
        simp [leafFlag, FlagLoader.extend, FlagLoader.segment, FlagLoader.flagUsage,
          hS, hC, hU]

theorem flagsOfList_config (g f : FlagLoader) (hS : g.StructSeparator = f.StructSeparator)
    (hF : g.Flatten = f.Flatten) (hC : g.CamelCase = f.CamelCase)
    (hU : g.FlagUsageFunc = f.FlagUsageFunc) (pfx : String) (fields : List Field) :
    flagsOfList g pfx fields = flagsOfList f pfx fields := by
  match fields with
  | [] => simp [flagsOfList]
  | ff :: rest =>
    simp only [flagsOfList]
    rw [flagsOf_config g f hS hF hC hU pfx ff, flagsOfList_config g f hS hF hC hU pfx rest]

end

/-- The registration phase depends on the loader only through its configuration after the
separator default: the flag set the loader holds plays no part. -/
theorem register_config (g f : FlagLoader) (s : Struct)
    (h : g.defaulted.fresh = f.defaulted.fresh) : register g s = register f s := by
  have hS : g.defaulted.StructSeparator = f.defaulted.StructSeparator := by
    have h1 := congrArg FlagLoader.StructSeparator h
    exact h1
  have hF : g.defaulted.Flatten = f.defaulted.Flatten := by
    have h1 := congrArg FlagLoader.Flatten h
    exact h1
  have hC : g.defaulted.CamelCase = f.defaulted.CamelCase := by
    have h1 := congrArg FlagLoader.CamelCase h
    exact h1
  have hU : g.defaulted.FlagUsageFunc = f.defaulted.FlagUsageFunc := by
    have h1 := congrArg FlagLoader.FlagUsageFunc h
    exact h1
  have hP : g.defaulted.Prefix = f.defaulted.Prefix := by
    have h1 := congrArg FlagLoader.Prefix h
    exact h1
  have hE : g.defaulted.ErrorHandling = f.defaulted.ErrorHandling := by
    have h1 := congrArg FlagLoader.ErrorHandling h
    exact h1
  have hEg : g.defaulted.ErrorHandling = g.ErrorHandling := by
    unfold FlagLoader.defaulted; split <;> rfl
  have hEf : f.defaulted.ErrorHandling = f.ErrorHandling := by
    unfold FlagLoader.defaulted; split <;> rfl
  rw [defaulted_Prefix, defaulted_Prefix] at hP
  rw [defaulted_Flatten, defaulted_Flatten] at hF
  rw [hEg, hEf] at hE
  rw [register_eq, register_eq, flagsOfList_config g.defaulted f.defaulted hS
    (by rw [defaulted_Flatten, defaulted_Flatten, hF]) hC hU, hP]
  unfold registered
  rw [defineFlags_congr g f hF, hE]
  cases defineFlags f (flagsOfList f.defaulted f.Prefix s.Fields)
      (flag.NewFlagSet s.Name f.ErrorHandling) with
  | panic msg => rfl
  | ret fs =>
    have := congrArg (fun l : FlagLoader => { l with flagSet := some fs }) h
    simp only [FlagLoader.fresh] at this
    simp only [this]

theorem Load_config (env : Env) (g f : FlagLoader) (s : Struct)
    (h : g.defaulted.fresh = f.defaulted.fresh) : Load env g s = Load env f s := by
  simp only [Load, register_config g f s h]

/-- The loader `Load` leaves behind when it returns: the configuration after the separator
default, holding the flag set of this load. -/
theorem Load_ret_loader (env : Env) (f : FlagLoader) (s : Struct) (f1 : FlagLoader)
    (err : error) (h : Load env f s = .ret (f1, err)) :
    ∃ fs, f1 = { f.defaulted with flagSet := some fs } := by
  unfold Load at h
  rw [register_eq] at h
  unfold registered at h
  cases hd : defineFlags f (flagsOfList f.defaulted f.Prefix s.Fields)
      (flag.NewFlagSet s.Name f.ErrorHandling) with
  | panic msg => rw [hd] at h; cases h
  | ret fs =>
    rw [hd] at h
    refine ⟨fs, ?_⟩
    simp only at h
    split at h
    · cases h
    · simp only [Outcome.ret.injEq, Prod.mk.injEq] at h
      exact h.1.symm

/-- C11. A loader is safe to reuse sequentially: when `Load` of a record `r1` returns, a
following `Load` of `r2` on the loader as the first call left it runs the registration
phase to the same outcome (the same flag set, with the same names and usages, or the same
panic) and gives the same result as `Load` of `r2` on a fresh loader with the same
configuration; the flag set of the second load holds the flags resolved for `r2` only. -/
theorem loader_reuse (env : Env) (f : FlagLoader) (r1 r2 : Struct) (f1 : FlagLoader)
    (err1 : error) (h : Load env f r1 = .ret (f1, err1)) :
    register f1 r2 = register f.fresh r2
    ∧ Load env f1 r2 = Load env f.fresh r2
    ∧ ∀ f2 err fs, register f1 r2 = .ret (f2, err, fs) → fs.formal = resolved f.fresh r2 := by
  obtain ⟨fs1, hf1⟩ := Load_ret_loader env f r1 f1 err1 h
  have hcfg : f1.defaulted.fresh = f.fresh.defaulted.fresh := by
    rw [hf1]
    unfold FlagLoader.fresh FlagLoader.defaulted
    by_cases hsep : f.StructSeparator = "" <;> simp [hsep]
  have hreg := register_config f1 f.fresh r2 hcfg
  refine ⟨hreg, Load_config env f1 f.fresh r2 hcfg, ?_⟩
  intro f2 err fs hr
  rw [hreg] at hr
  exact (register_resolved f.fresh r2).2 f2 err fs hr

theorem loader_reuse_witness :
    Load quietEnv plainLoader camelCaseServer
      = .ret ({ plainLoader.defaulted with flagSet := some camelFlagSetPlain }, none)
    ∧ (register { plainLoader.defaulted with flagSet := some camelFlagSetPlain }
          camelCaseServer
        = register plainLoader.fresh camelCaseServer
      ∧ Load quietEnv { plainLoader.defaulted with flagSet := some camelFlagSetPlain }
          camelCaseServer
        = Load quietEnv plainLoader.fresh camelCaseServer
      ∧ ∀ f2 err fs,
        register { plainLoader.defaulted with flagSet := some camelFlagSetPlain }
          camelCaseServer = .ret (f2, err, fs) →
        fs.formal = resolved plainLoader.fresh camelCaseServer)
    ∧ (register { plainLoader.defaulted with flagSet := some camelFlagSetPlain }
        camelCaseServer).returned?.map (fun r => r.2.2.names)
      = some ["accesskey", "normal", "dbname", "availabilityratio"] :=
  ⟨rfl, loader_reuse quietEnv plainLoader camelCaseServer camelCaseServer _ none rfl,
    by decide⟩

/-! ### C12 -/

theorem register_ret_loader (f : FlagLoader) (s : Struct) (f1 : FlagLoader) (err : error)
    (fs : FlagSet) (h : register f s = .ret (f1, err, fs)) :
    f1 = { f.defaulted with flagSet := some fs } := by
  rw [register_eq] at h
  unfold registered at h
  cases hd : defineFlags f (flagsOfList f.defaulted f.Prefix s.Fields)
      (flag.NewFlagSet s.Name f.ErrorHandling) with
  | panic msg => rw [hd] at h; cases h
  | ret fs2 =>
    rw [hd] at h
    simp only [Outcome.ret.injEq, Prod.mk.injEq] at h
    obtain ⟨h1, _, h3⟩ := h
    rw [← h1, h3]

theorem defaulted_Args (f : FlagLoader) : f.defaulted.Args = f.Args := by
  unfold FlagLoader.defaulted; split <;> rfl

/-- C12, amended. Argument-list selection: once the flags are registered, `Load` parses
exactly the loader's `Args` whenever `Args` is non-nil, an empty list included, in which
case `Parse` sets no flag and returns nil; when `Args` is nil it parses
`filterArgs(os.Args[1:])`, the process argument list as `filterArgs` leaves it. -/
theorem args_selection (env : Env) (f : FlagLoader) (s : Struct) (f1 : FlagLoader)
    (fs : FlagSet) (h : register f s = .ret (f1, none, fs)) :
    (∀ a, f.Args = some a → Load env f s = parsed env f1 fs a)
    ∧ (f.Args = none → Load env f s = parsed env f1 fs (filterArgs env.osArgs))
    ∧ ∀ set, fs.Parse set [] = (.ret none, ⟨[], []⟩) := by
  have hA : f1.Args = f.Args := by
    rw [register_ret_loader f s f1 none fs h]
    exact defaulted_Args f
  refine ⟨?_, ?_, ?_⟩
  · intro a ha
    simp only [Load, h, hA, ha, parsed]
  · intro ha
    simp only [Load, h, hA, ha, parsed]
  · intro set
    rfl

theorem args_selection_witness :
    register { plainLoader with Args := some [] } taggedRecord
      = .ret ({ plainLoader.defaulted with Args := some [], flagSet := some foobarFlagSet },
          none, foobarFlagSet)
    ∧ ((∀ a, ({ plainLoader with Args := some [] } : FlagLoader).Args = some a →
        Load testFlagsEnv { plainLoader with Args := some [] } taggedRecord
          = parsed testFlagsEnv
              { plainLoader.defaulted with Args := some [], flagSet := some foobarFlagSet }
              foobarFlagSet a)
      ∧ (({ plainLoader with Args := some [] } : FlagLoader).Args = none →
        Load testFlagsEnv { plainLoader with Args := some [] } taggedRecord
          = parsed testFlagsEnv
              { plainLoader.defaulted with Args := some [], flagSet := some foobarFlagSet }
              foobarFlagSet (filterArgs testFlagsEnv.osArgs))
      ∧ ∀ set, foobarFlagSet.Parse set [] = (.ret none, ⟨[], []⟩))
    ∧ (Load testFlagsEnv { plainLoader with Args := some ["-foobar", "x"] }
        taggedRecord).returned?.map Prod.snd = some none
    ∧ foobarFlagSet.Parse (fun _ _ => none) ["-foobar", "x"]
        = (.ret none, ⟨[], [("foobar", "x")]⟩) :=
  ⟨rfl, args_selection testFlagsEnv { plainLoader with Args := some [] } taggedRecord _
      foobarFlagSet rfl, by decide, by decide⟩

/-- C12 as stated fails: in a process started with `-test.timeout 10s` a loader with nil
`Args` parses the empty list `filterArgs` leaves and returns nil, where `Parse` of
`os.Args[1:]` returns the error of an undefined flag. -/
theorem args_selection_stated_fails :
    ¬ ArgsSelectionStated testFlagsEnv plainLoader taggedRecord := by
  intro h
  have h1 := h { plainLoader.defaulted with flagSet := some foobarFlagSet } foobarFlagSet rfl
  have h2 := congrArg (fun o => o.returned?.map Prod.snd) h1
  revert h2
  decide

/-! ### C13 -/

theorem register_ret_defineFlags (f : FlagLoader) (s : Struct) (f1 : FlagLoader)
    (err : error) (fs : FlagSet) (h : register f s = .ret (f1, err, fs)) :
    defineFlags f (resolved f s) (flag.NewFlagSet s.Name f.ErrorHandling) = .ret fs := by
  rw [register_eq] at h
  unfold registered at h
  unfold resolved
  cases hd : defineFlags f (flagsOfList f.defaulted f.Prefix s.Fields)
      (flag.NewFlagSet s.Name f.ErrorHandling) with
  | panic msg => rw [hd] at h; cases h
  | ret fs2 =>
    rw [hd] at h
    simp only [Outcome.ret.injEq, Prod.mk.injEq] at h
    rw [h.2.2]

theorem defineFlag_valid (f : FlagLoader) (fl : flag.Flag) (fs fs1 : FlagSet)
    (h : defineFlag f fl fs = .ret fs1) :
    strings.HasPrefix fl.Name "-" = false ∧ strings.Contains fl.Name "=" = false := by
  rw [defineFlag_eq] at h
  by_cases hF : f.Flatten = true <;>
    by_cases hm : fl.Name ∈ fs.names <;>
    by_cases h1 : strings.HasPrefix fl.Name "-" = true <;>
    by_cases h2 : strings.Contains fl.Name "=" = true <;>
    simp [hF, hm, h1, h2] at h
  all_goals exact ⟨by simpa using h1, by simpa using h2⟩

theorem defineFlags_valid (f : FlagLoader) (flags : List flag.Flag) (fs fs1 : FlagSet)
    (h : defineFlags f flags fs = .ret fs1) :
    ∀ fl ∈ flags,
      strings.HasPrefix fl.Name "-" = false ∧ strings.Contains fl.Name "=" = false := by
  induction flags generalizing fs with
  | nil => simp
  | cons fl rest ih =>
    simp only [defineFlags] at h
    cases hd : defineFlag f fl fs with
    | panic msg => rw [hd] at h; cases h
    | ret fs2 =>
      rw [hd] at h
      intro x hx
      simp only [List.mem_cons] at hx
      rcases hx with hx | hx
      · subst hx
        exact defineFlag_valid f x fs fs2 hd
      · exact ih fs2 h x hx

theorem find_of_nodup (flags : List flag.Flag) (fl : flag.Flag)
    (hn : (flags.map flag.Flag.Name).Nodup) (hm : fl ∈ flags) :
    flags.find? (fun x => x.Name == fl.Name) = some fl := by
  induction flags with
  | nil => cases hm
  | cons a rest ih =>
    simp only [List.map_cons, List.nodup_cons] at hn
    simp only [List.mem_cons] at hm
    by_cases ha : a.Name = fl.Name
    · rcases hm with hm | hm
      · subst hm
        simp [List.find?]
      · exfalso
        apply hn.1
        rw [ha]
        exact List.mem_map_of_mem _ hm
    · rcases hm with hm | hm
      · subst hm
        exact absurd rfl ha
      · have hb : (a.Name == fl.Name) = false := by simpa using ha
        simp only [List.find?, hb]
        exact ih hn.2 hm

theorem not_mem_of_containsChars (c : Char) (l : List Char)
    (h : strings.containsChars [c] l = false) : c ∉ l := by
  induction l with
  | nil => simp
  | cons a rest ih =>
    simp only [strings.containsChars, strings.hasPrefixChars, Bool.and_true,
      Bool.or_eq_false_iff, beq_eq_false_iff_ne, ne_eq] at h
    simp only [List.mem_cons, not_or]
    exact ⟨h.1, ih h.2⟩

theorem splitEquals_none (l : List Char) (h : '=' ∉ l) : FlagSet.splitEquals l = none := by
  induction l with
  | nil => rfl
  | cons a rest ih =>
    simp only [List.mem_cons, not_or] at h
    have ha : ¬ a = '=' := fun e => h.1 e.symm
    simp [FlagSet.splitEquals, ha, ih h.2]

/-- `parseOne` on the argument `-name` for a defined flag whose name has no "=" and does
not begin with "-": the flag is looked up and set, without a value from "=". -/
theorem parseOne_flag (set : fieldValue → String → error) (fs : FlagSet) (fl : flag.Flag)
    (rest : List String) (calls : List (String × String))
    (hne : fl.Name ≠ "") (hp : strings.HasPrefix fl.Name "-" = false)
    (hc : strings.Contains fl.Name "=" = false) (hl : fs.Lookup fl.Name = some fl) :
    FlagSet.parseOne set fs ⟨("-" ++ fl.Name) :: rest, calls⟩
      = FlagSet.setFlag set fl fl.Name false "" ⟨rest, calls⟩ := by
  have hdata : ∃ n0 ntl, fl.Name.data = n0 :: ntl := by
    cases hd : fl.Name.data with
    | nil => exact absurd (String.ext hd) hne
    | cons n0 ntl => exact ⟨n0, ntl, rfl⟩
  obtain ⟨n0, ntl, hd⟩ := hdata
  have hmk : String.mk (n0 :: ntl) = fl.Name := by rw [← hd]
  have h0 : ¬ n0 = '-' := by
    intro e
    simp [strings.HasPrefix, hd, e, strings.hasPrefixChars] at hp
  have hnot : '=' ∉ n0 :: ntl := by
    rw [← hd]
    exact not_mem_of_containsChars '=' _ hc
  simp only [List.mem_cons, not_or] at hnot
  have h1 : ¬ n0 = '=' := fun e => hnot.1 e.symm
  have hs : ("-" ++ fl.Name).data = '-' :: n0 :: ntl := by
    rw [String.data_append, hd]
    rfl
  simp only [FlagSet.parseOne, hs, h0, h1, ne_eq, not_true_eq_false, if_false, false_and,
    or_self, splitEquals_none ntl hnot.2, hmk, hl]

theorem setFlag_bool (set : fieldValue → String → error) (fl : flag.Flag) (name : String)
    (p : FlagSet.Parsing) (hb : fl.Value.IsBoolFlag = true) :
    (FlagSet.setFlag set fl name false "" p).2
        = ⟨p.args, p.calls ++ [(name, "true")]⟩
      ∧ (set fl.Value "true" = none → (FlagSet.setFlag set fl name false "" p).1 = .seen) := by
  unfold FlagSet.setFlag
  cases hs : set fl.Value "true" <;> simp [hb, hs]

theorem setFlag_value (set : fieldValue → String → error) (fl : flag.Flag) (name : String)
    (rest : List String) (calls : List (String × String))
    (hb : fl.Value.IsBoolFlag = false) :
    FlagSet.setFlag set fl name false "" ⟨[], calls⟩
        = (.failed ("flag needs an argument: -" ++ name), ⟨[], calls⟩)
      ∧ ∀ v, (FlagSet.setFlag set fl name false "" ⟨v :: rest, calls⟩).2
        = ⟨rest, calls ++ [(name, v)]⟩ := by
  constructor
  · simp [FlagSet.setFlag, hb]
  · intro v
    unfold FlagSet.setFlag
    cases hs : set fl.Value v <;> simp [hb, hs]

/-- C13. Boolean leaves register as presence-style flags: for every flag the registration
phase of `Load` leaves in the flag set, `IsBoolFlag` is true exactly when the kind of the
field is bool; `parseOne` of package flag then sets a bool leaf from its bare flag
`-name`, handing "true" to `Set` and taking no value token, while for a leaf of any other
kind the bare flag fails with "flag needs an argument" and a following token is taken as
the value. -/
theorem bool_flags_presence (f : FlagLoader) (s : Struct) (f1 : FlagLoader) (err : error)
    (fs : FlagSet) (h : register f s = .ret (f1, err, fs)) :
    ∀ fl ∈ fs.formal,
      (fl.Value.IsBoolFlag = true ↔ fl.Value.field.Kind = reflect.Kind.Bool)
      ∧ (fl.Name ≠ "" →
        ∀ (set : fieldValue → String → error) (rest : List String)
          (calls : List (String × String)),
          (fl.Value.field.Kind = reflect.Kind.Bool →
            (FlagSet.parseOne set fs ⟨("-" ++ fl.Name) :: rest, calls⟩).2
                = ⟨rest, calls ++ [(fl.Name, "true")]⟩
              ∧ (set fl.Value "true" = none →
                (FlagSet.parseOne set fs ⟨("-" ++ fl.Name) :: rest, calls⟩).1 = .seen))
          ∧ (fl.Value.field.Kind ≠ reflect.Kind.Bool →
            FlagSet.parseOne set fs ⟨["-" ++ fl.Name], calls⟩
                = (.failed ("flag needs an argument: -" ++ fl.Name), ⟨[], calls⟩)
              ∧ ∀ v, (FlagSet.parseOne set fs ⟨("-" ++ fl.Name) :: v :: rest, calls⟩).2
                = ⟨rest, calls ++ [(fl.Name, v)]⟩)) := by
  intro fl hfl
  have hiff : fl.Value.IsBoolFlag = true ↔ fl.Value.field.Kind = reflect.Kind.Bool := by
    simp [fieldValue.IsBoolFlag]
  refine ⟨hiff, ?_⟩
  intro hne set rest calls
  have hd := register_ret_defineFlags f s f1 err fs h
  have hformal : fs.formal = resolved f s := by
    simpa [flag.NewFlagSet] using (defineFlags_formal f _ _ fs hd).1
  have hvalid := defineFlags_valid f _ _ fs hd fl (by rw [← hformal]; exact hfl)
  have hnodup : (fs.formal.map flag.Flag.Name).Nodup :=
    defineFlags_nodup f _ _ fs (by simp [FlagSet.names, flag.NewFlagSet]) hd
  have hl : fs.Lookup fl.Name = some fl := find_of_nodup fs.formal fl hnodup hfl
  constructor
  · intro hk
    rw [parseOne_flag set fs fl rest calls hne hvalid.1 hvalid.2 hl]
    exact setFlag_bool set fl fl.Name ⟨rest, calls⟩ (hiff.mpr hk)
  · intro hk
    have hb : fl.Value.IsBoolFlag = false := by
      cases hv : fl.Value.IsBoolFlag with
      | false => rfl
      | true => exact absurd (hiff.mp hv) hk
    rw [parseOne_flag set fs fl [] calls hne hvalid.1 hvalid.2 hl]
    refine ⟨(setFlag_value set fl fl.Name rest calls hb).1, ?_⟩
    intro v
    rw [parseOne_flag set fs fl (v :: rest) calls hne hvalid.1 hvalid.2 hl]
    exact (setFlag_value set fl fl.Name rest calls hb).2 v

theorem bool_flags_presence_witness :
    register separatorLoader nestedServer
      = .ret ({ separatorLoader.defaulted with flagSet := some nestedFlagSet }, none,
          nestedFlagSet)
    ∧ (∀ fl ∈ nestedFlagSet.formal,
      (fl.Value.IsBoolFlag = true ↔ fl.Value.field.Kind = reflect.Kind.Bool)
      ∧ (fl.Name ≠ "" →
        ∀ (set : fieldValue → String → error) (rest : List String)
          (calls : List (String × String)),
          (fl.Value.field.Kind = reflect.Kind.Bool →
            (FlagSet.parseOne set nestedFlagSet ⟨("-" ++ fl.Name) :: rest, calls⟩).2
                = ⟨rest, calls ++ [(fl.Name, "true")]⟩
              ∧ (set fl.Value "true" = none →
                (FlagSet.parseOne set nestedFlagSet
                  ⟨("-" ++ fl.Name) :: rest, calls⟩).1 = .seen))
          ∧ (fl.Value.field.Kind ≠ reflect.Kind.Bool →
            FlagSet.parseOne set nestedFlagSet ⟨["-" ++ fl.Name], calls⟩
                = (.failed ("flag needs an argument: -" ++ fl.Name), ⟨[], calls⟩)
              ∧ ∀ v, (FlagSet.parseOne set nestedFlagSet
                  ⟨("-" ++ fl.Name) :: v :: rest, calls⟩).2
                = ⟨rest, calls ++ [(fl.Name, v)]⟩)))
    ∧ nestedFlagSet.formal.map (fun fl => (fl.Name, fl.Value.IsBoolFlag))
        = [("name", false), ("databaseoptions.postgres.enabled", true),
            ("databaseoptions.postgres.port", false),
            ("databaseoptions.postgres.hosts", false),
            ("databaseoptions.postgres.dbname", false),
            ("databaseoptions.postgres.availabilityratio", false)]
    ∧ nestedFlagSet.Parse (fun _ _ => none) separatorArgs
        = (.ret none,
            ⟨[], [("name", "koding"), ("databaseoptions.postgres.enabled", "true"),
              ("databaseoptions.postgres.port", "5432"),
              ("databaseoptions.postgres.hosts", "192.168.2.1,192.168.2.2,192.168.2.3"),
              ("databaseoptions.postgres.dbname", "configdb"),
              ("databaseoptions.postgres.availabilityratio", "8.23")]⟩) :=
  ⟨rfl, bool_flags_presence separatorLoader nestedServer _ none nestedFlagSet rfl,
    by decide, by decide⟩

/-! ### C14 -/

/-- C14. An exported field is recursed into exactly when its kind is struct: for an
exported field of any other kind `processField` defines exactly one flag, named after the
field and holding the field as value, whatever fields lie behind it; for an exported field
of kind struct `processField` runs the loop over its fields, the flags it defines are
those of the fields, and none of them is a flag of the struct field itself. -/
theorem recursion_iff_struct (f : FlagLoader) (pfx : String) (field : Field) (fs : FlagSet)
    (he : field.IsExported = true) :
    (field.Kind ≠ reflect.Kind.Struct →
      processField f pfx field fs
          = noError (defineFlag f (leafFlag f (f.extend pfx) field) fs)
        ∧ flagsOf f pfx field = [leafFlag f (f.extend pfx) field])
    ∧ (field.Kind = reflect.Kind.Struct →
      processField f pfx field fs
          = processStruct f (f.extend pfx) field.Name field.Fields fs
        ∧ flagsOf f pfx field
          = flagsOfList f (f.childPrefix (f.extend pfx) field.Name) field.Fields
        ∧ ∀ fl ∈ flagsOf f pfx field, fl.Value.field ≠ field) := by
  constructor
  · intro hk
    cases field with
    | mk name exported kind tags v fields =>
      simp only [Field.IsExported] at he
      simp only [Field.Kind] at hk
      subst he
      exact ⟨by rw [processField_leaf _ _ _ _ _ _ _ _ hk, processLeaf_eq],
        flagsOf_leaf f pfx name kind tags v fields hk⟩
  · intro hk
    refine ⟨?_, ?_, ?_⟩
    · cases field with
      | mk name exported kind tags v fields =>
        simp only [Field.IsExported] at he
        simp only [Field.Kind] at hk
        subst he hk
        simp [processField, FlagLoader.extend, Field.Name, Field.Fields]
    · cases field with
      | mk name exported kind tags v fields =>
        simp only [Field.IsExported] at he
        simp only [Field.Kind] at hk
        subst he hk
        exact flagsOf_struct f pfx name tags v fields
    · intro fl hfl heq
      have := (flagsOf_shape f pfx field fl hfl).2.2
      rw [heq] at this
      exact this hk

theorem recursion_iff_struct_witness :
    (pointerURL "Private").IsExported = true
    ∧ (((pointerURL "Private").Kind ≠ reflect.Kind.Struct →
        processField plainLoader.defaulted "" (pointerURL "Private") foobarFlagSet
            = noError (defineFlag plainLoader.defaulted
                (leafFlag plainLoader.defaulted (plainLoader.defaulted.extend "")
                  (pointerURL "Private")) foobarFlagSet)
          ∧ flagsOf plainLoader.defaulted "" (pointerURL "Private")
            = [leafFlag plainLoader.defaulted (plainLoader.defaulted.extend "")
                (pointerURL "Private")])
      ∧ ((pointerURL "Private").Kind = reflect.Kind.Struct →
        processField plainLoader.defaulted "" (pointerURL "Private") foobarFlagSet
            = processStruct plainLoader.defaulted (plainLoader.defaulted.extend "")
                (pointerURL "Private").Name (pointerURL "Private").Fields foobarFlagSet
          ∧ flagsOf plainLoader.defaulted "" (pointerURL "Private")
            = flagsOfList plainLoader.defaulted
                (plainLoader.defaulted.childPrefix (plainLoader.defaulted.extend "")
                  (pointerURL "Private").Name) (pointerURL "Private").Fields
          ∧ ∀ fl ∈ flagsOf plainLoader.defaulted "" (pointerURL "Private"),
              fl.Value.field ≠ pointerURL "Private"))
    ∧ (register plainLoader endpoint).returned?.map (fun r => r.2.2.names)
        = some ["private", "public"]
    ∧ (register camelLoader mapRecord).returned?.map (fun r => r.2.2.names)
        = some ["map-string-int", "map-string-string"]
    ∧ (register plainLoader flattenedServer).returned?.map (fun r => r.2.2.names)
        = some ["postgres-enabled", "postgres-port", "postgres-hosts", "postgres-dbname",
            "postgres-availabilityratio"] :=
  ⟨rfl,
    recursion_iff_struct plainLoader.defaulted "" (pointerURL "Private") foobarFlagSet rfl,
    by decide, by decide, by decide⟩

/-! ### C15 -/

/-- The bound on the iterations of the loop of `filterArgs` is enough: once the fuel
covers the arguments from the index on, more fuel gives the same result. -/
theorem filterArgsLoop_fuel (args : List String) (fuel k i : Nat) (r : List String)
    (h : args.length ≤ i + fuel) :
    filterArgsLoop args (fuel + k) i r = filterArgsLoop args fuel i r := by
  induction fuel generalizing i r with
  | zero =>
    have hnone : args[i]? = none := List.getElem?_eq_none (by omega)
    cases k with
    | zero => rfl
    | succ k =>
      rw [Nat.zero_add]
      simp [filterArgsLoop, hnone]
  | succ fuel ih =>
    have hk : fuel + 1 + k = (fuel + k) + 1 := by omega
    rw [hk]
    simp only [filterArgsLoop]
    cases ha : args[i]? with
    | none => rfl
    | some a =>
      simp only
      split
      · apply ih
        split
        · split
          · show args.length ≤ i + 1 + 1 + 1 + fuel
            omega
          · show args.length ≤ i + 1 + 1 + fuel
            omega
        · show args.length ≤ i + 1 + 1 + fuel
          omega
      · apply ih
        omega

/-- C15, at the failing input. For `-test.v -name x` the loop of `filterArgs` advances its
index twice after the test flag and so drops `-name`, the flag that follows it, where the
flag and its value are to be kept; after a test flag with a value, `-test.timeout 10s`,
it drops the flag that follows the value. -/
theorem filterArgs_drops_flag :
    filterArgs ["-test.v", "-name", "x"] = ["x"]
    ∧ keptArgs ["-test.v", "-name", "x"] = ["-name", "x"]
    ∧ filterArgs ["-test.timeout", "10s", "-name", "x"] = ["x"]
    ∧ keptArgs ["-test.timeout", "10s", "-name", "x"] = ["-name", "x"]
    ∧ filterArgs ["-name", "x", "-test.v"] = keptArgs ["-name", "x", "-test.v"] := by
  refine ⟨?_, ?_, ?_, ?_, ?_⟩ <;> decide

/-! ### The loop of `Parse` ends within its bound -/

theorem setFlag_args_le (set : fieldValue → String → error) (fl : flag.Flag) (name : String)
    (hasValue : Bool) (value : String) (p : FlagSet.Parsing) :
    (FlagSet.setFlag set fl name hasValue value p).2.args.length ≤ p.args.length := by
  obtain ⟨args, calls⟩ := p
  unfold FlagSet.setFlag
  cases fl.Value.IsBoolFlag <;> cases hasValue <;> cases args <;>
    simp only [Bool.false_eq_true, if_false, if_true] <;>
    (try split) <;> simp

theorem parseOne_seen (set : fieldValue → String → error) (fs : FlagSet)
    (p : FlagSet.Parsing) (h : (FlagSet.parseOne set fs p).1 = .seen) :
    (FlagSet.parseOne set fs p).2.args.length < p.args.length := by
  obtain ⟨args, calls⟩ := p
  unfold FlagSet.parseOne at h ⊢
  cases args with
  | nil => simp at h
  | cons s rest =>
    simp only at h ⊢
    split at h
    · rename_i c0 c1 tl hs
      try simp only [hs]
      split at h
      · simp at h
      · split at h
        · simp at h
        · rename_i h0 h1
          try simp only [h0, h1, if_false]
          split at h
          · simp at h
          · rename_i n0 ntl hname
            try simp only [hname]
            split at h
            · simp at h
            · rename_i h2
              try simp only [h2, if_false]
              split at h
              · rename_i before value hsplit
                try simp only [hsplit]
                split at h
                · split at h <;> simp at h
                · rename_i fl hl
                  try simp only [hl]
                  have := setFlag_args_le set fl (String.mk (n0 :: before)) true
                    (String.mk value) ⟨rest, calls⟩
                  simp only [List.length_cons] at this ⊢
                  omega
              · rename_i hsplit
                try simp only [hsplit]
                split at h
                · split at h <;> simp at h
                · rename_i fl hl
                  try simp only [hl]
                  have := setFlag_args_le set fl (String.mk (n0 :: ntl)) false ""
                    ⟨rest, calls⟩
                  simp only [List.length_cons] at this ⊢
                  omega
    · simp at h

/-- The bound on the iterations of the loop of `Parse` is enough: with more iterations
than arguments left, more fuel gives the same result. -/
theorem parseLoop_fuel (set : fieldValue → String → error) (fs : FlagSet) (fuel k : Nat)
    (p : FlagSet.Parsing) (h : p.args.length < fuel) :
    FlagSet.parseLoop set fs (fuel + k) p = FlagSet.parseLoop set fs fuel p := by
  induction fuel generalizing p with
  | zero => omega
  | succ fuel ih =>
    have hk : fuel + 1 + k = (fuel + k) + 1 := by omega
    rw [hk]
    simp only [FlagSet.parseLoop]
    cases hp : FlagSet.parseOne set fs p with
    | mk sr p1 =>
      cases sr with
      | seen =>
        simp only
        apply ih
        have := parseOne_seen set fs p (by rw [hp])
        rw [hp] at this
        simp only at this
        omega
      | done => rfl
      | failed err => rfl

end multiconfig
